import Mathlib

/-!
Verification of the two-level hash table (`DoubleKeyTable`) of the
VirusSimulation repository against its natural-language specification.

The development shallowly embeds `src/double_key_table.py`.  The nested
single-key `LinearProbeTable` is an external collaborator whose code is not
part of the repository sources; it is modelled from the specification
(section 6 of the spec), as noted on each of its definitions.

Conventions:
* Python exceptions become values of `PyErr`; operations that may raise
  return `Except PyErr` results.  Operations that mutate the table return
  the (possibly partially mutated) state alongside the result, mirroring
  the fact that a Python exception leaves the already performed mutations
  in place.
* Machine integers do not occur: Python integers are unbounded, so `Nat`
  and `Int` are exact models.  The top-level occupancy counter is an `Int`
  because the source can drive it below zero (`self.count -= 1` after a
  resize reset it to `0`).
* The unbounded `while` loop of the deletion cluster repair is embedded
  with explicit fuel (`repairWalk`); the termination theorem for claim C8
  proves the chosen fuel is always sufficient, so the fuelled function is
  an exact model of the loop on every state the theorem covers.
-/

namespace VirusSim

/-- Python exceptions that the modelled code can raise.  `keyError` and
`fullError` are the `NotFound` / `TableFull` conditions of the spec;
`attributeError`, `zeroDivisionError` and `typeError` model the
corresponding Python runtime errors; `modelTimeout` is not a Python error:
it is the artefact marker returned when the fuel of the embedded repair
walk runs out, and it is proved unreachable on reachable states. -/
inductive PyErr where
  | keyError
  | fullError
  | attributeError
  | zeroDivisionError
  | typeError
  | modelTimeout
  deriving DecidableEq, BEq, Repr

instance {ε α : Type} [DecidableEq ε] [DecidableEq α] :
    DecidableEq (Except ε α) := fun x y =>
  match x, y with
  | .ok a, .ok b =>
    if h : a = b then .isTrue (by rw [h])
    else .isFalse (fun hc => h (by injection hc))
  | .ok _, .error _ => .isFalse (fun hc => Except.noConfusion hc)
  | .error _, .ok _ => .isFalse (fun hc => Except.noConfusion hc)
  | .error a, .error b =>
    if h : a = b then .isTrue (by rw [h])
    else .isFalse (fun hc => h (by injection hc))

/-- A slot of a probing array: empty, or an entry `(key, value)`. -/
abbrev Slot (α : Type) := Option (String × α)

/-- A probing array, as in `ArrayR` of the source: a fixed-length sequence
of optional entries. -/
abbrev Arr (α : Type) := List (Slot α)

/-- Read slot `i` of an array (out of range reads give `none`; the source
only ever indexes in range). -/
def idx {α : Type} (a : Arr α) (i : Nat) : Slot α :=
  a.getD i none

/-- `HASH_BASE` of `DoubleKeyTable`. -/
def HASH_BASE : Nat := 31

/-- One step of the rolling hash of `hash1`/`hash2`:
`value = (ord(char) + a * value) % size; a = a * HASH_BASE % (size - 1)`.
The state is the pair `(value, a)`. -/
def hashStep (size : Nat) (st : Nat × Nat) (c : Char) : Nat × Nat :=
  ((c.toNat + st.2 * st.1) % size, st.2 * HASH_BASE % (size - 1))

/-- The polynomial rolling hash of `DoubleKeyTable.hash1` (and `hash2`,
which is the same computation with the nested table's size), starting from
`value = 0`, `a = 31417`.  This is the total model: Lean's `x % 0 = x`
stands in for the `ZeroDivisionError` Python raises when `size = 1`; the
exception-aware model is `hashE` below and agrees with this one whenever
`size ≥ 2`. -/
def polyHash (size : Nat) (key : String) : Nat :=
  (key.data.foldl (hashStep size) (0, 31417)).1

/-- The character loop of `hash1`/`hash2` with the Python exception made
explicit: the update `a = a * HASH_BASE % (size - 1)` raises
`ZeroDivisionError` when `size - 1 = 0`, and it is executed for every
character. -/
def hashFoldE (size : Nat) : List Char → (Nat × Nat) → Except PyErr (Nat × Nat)
  | [], st => .ok st
  | c :: cs, st =>
    if size - 1 = 0 then .error .zeroDivisionError
    else hashFoldE size cs (hashStep size st c)

/-- Exception-aware model of `hash1`/`hash2`: run the rolling hash from
`value = 0`, `a = 31417` and return `value`, or the first
`ZeroDivisionError`. -/
def hashE (size : Nat) (key : String) : Except PyErr Nat :=
  match hashFoldE size key.data (0, 31417) with
  | .ok st => .ok st.1
  | .error e => .error e

/-- Result of one linear-probe scan (`_linear_probe` loop body outcomes):
the first empty slot, the slot holding the key, or exhaustion of the
whole capacity. -/
inductive ProbeOut where
  | empty : Nat → ProbeOut
  | found : Nat → ProbeOut
  | exhausted
  deriving DecidableEq, Repr

/-- The linear probing scan shared by both table levels (the `for _ in
range(self.table_size)` loop of `_linear_probe`): starting at `pos`, skip
occupied slots whose key differs, stop at the first empty slot or at the
slot whose key matches; `fuel` is `table_size`. -/
def probeAux {α : Type} (a : Arr α) (k : String) : Nat → Nat → ProbeOut
  | _, 0 => .exhausted
  | pos, fuel + 1 =>
    match idx a pos with
    | none => .empty pos
    | some (k', _) =>
      if k' = k then .found pos
      else probeAux a k ((pos + 1) % a.length) fuel

/-- Full probe from the hash of the key, scanning at most `table_size`
slots, as in `_linear_probe`. -/
def probe {α : Type} (a : Arr α) (k : String) : ProbeOut :=
  probeAux a k (polyHash a.length k) a.length

/-- Fuel bound for the deletion repair walk; proved sufficient in the
termination development (claim C8). -/
def walkFuel (n : Nat) : Nat :=
  n * n * n + n + 1

/-- The forward cluster-repair walk of `__delitem__` (and, one level down,
of the nested table's delete): starting at `pos`, while the slot is
occupied, vacate it and re-insert its entry at the position returned by a
fresh probe (`_linear_probe(k, None, True)`), then advance.  The source
loop is unbounded; the model uses fuel and returns `none` when the fuel
runs out or a probe exhausts the table (the termination theorem shows
neither happens when an empty slot exists). -/
def repairWalk {α : Type} (a : Arr α) (pos : Nat) : Nat → Option (Arr α)
  | 0 => none
  | fuel + 1 =>
    match idx a pos with
    | none => some a
    | some (k, v) =>
      let a' := a.set pos none
      match probe a' k with
      | .empty q => repairWalk (a'.set q (some (k, v))) ((pos + 1) % a.length) fuel
      | .found q => repairWalk (a'.set q (some (k, v))) ((pos + 1) % a.length) fuel
      | .exhausted => none

/-- Interpretation of a probe for the single-key table: translate the scan
outcome into a position or an exception as `_linear_probe` of the nested
`LinearProbeTable` does (and as the spec's section 4.1 describes): an
empty slot is a valid target only when inserting, a full scan raises
`TableFull` when inserting and `NotFound` otherwise. -/
def lptProbePos {α : Type} (a : Arr α) (k : String) (isInsert : Bool) :
    Except PyErr Nat :=
  match probe a k with
  | .found p => .ok p
  | .empty p => if isInsert then .ok p else .error .keyError
  | .exhausted => if isInsert then .error .fullError else .error .keyError

/-- Rebuild fold shared by both resize procedures: re-insert each old
entry into the new array at the position of a fresh probe
(`_linear_probe(key, None, True)`); a full scan raises `TableFull`,
leaving the partially rebuilt array. -/
def rebuildFold {α : Type} (acc : Arr α) :
    List (Slot α) → (Except PyErr Unit) × Arr α
  | [] => (.ok (), acc)
  | none :: rest => rebuildFold acc rest
  | some (k, v) :: rest =>
    match probe acc k with
    | .empty p => rebuildFold (acc.set p (some (k, v))) rest
    | .found p => rebuildFold (acc.set p (some (k, v))) rest
    | .exhausted => (.error .fullError, acc)

/-- Modelled from the spec: the single-key linear-probing table
(`LinearProbeTable` of `data_structures.hash_table`, not part of the
repository sources).  Per section 6 of the spec it maps one key to one
value by linear probing over a fixed-capacity array, grows along its own
capacity schedule, and its hash is the same polynomial bound to its own
current capacity. -/
structure LPT (α : Type) where
  sizes : List Nat
  sizeIndex : Nat
  array : Arr α
  count : Nat
  deriving Repr

/-- Modelled from the spec: a fresh nested table over a capacity
schedule, as created by `LinearProbeTable(self.internal_sizes)`. -/
def newLPT (α : Type) (sizes : List Nat) : LPT α :=
  ⟨sizes, 0, List.replicate (sizes.getD 0 0) none, 0⟩

/-- Modelled from the spec: the nested table's internal growth ("grows
along its own capacity schedule"); when no larger schedule entry remains
the table keeps its capacity, otherwise every entry is re-inserted into a
fresh larger array.  Failure (`TableFull` while rebuilding) is surfaced;
per section 5 of the spec the operation fails atomically. -/
def lptRehash {α : Type} (t : LPT α) : Except PyErr (LPT α) :=
  if t.sizeIndex + 1 ≥ t.sizes.length then .ok t
  else
    match rebuildFold
        (List.replicate (t.sizes.getD (t.sizeIndex + 1) 0) none) t.array with
    | (.ok _, a') => .ok { t with sizeIndex := t.sizeIndex + 1, array := a' }
    | (.error e, _) => .error e

/-- Modelled from the spec: `set(key, value)` of the nested table —
"inserts or overwrites; may grow internally; fails TableFull".  A new key
placed in an empty slot increments the count; growth triggers when the
count exceeds half the capacity (the load-factor policy of the spec). -/
def lptSet {α : Type} (t : LPT α) (k : String) (v : α) :
    Except PyErr (LPT α) :=
  match lptProbePos t.array k true with
  | .error e => .error e
  | .ok p =>
    let isNew := (idx t.array p).isNone
    let t' : LPT α :=
      { t with
        array := t.array.set p (some (k, v))
        count := if isNew then t.count + 1 else t.count }
    if 2 * t'.count > t'.array.length then lptRehash t' else .ok t'

/-- Modelled from the spec: `delete(key)` of the nested table — "fails
NotFound if absent; internally repairs its own cluster on removal (same
algorithm as section 4.3 step 2, one level down)". -/
def lptDelete {α : Type} (t : LPT α) (k : String) :
    Except PyErr (LPT α) :=
  match lptProbePos t.array k false with
  | .error e => .error e
  | .ok p =>
    match repairWalk (t.array.set p none) ((p + 1) % (t.array.set p none).length)
        (walkFuel (t.array.set p none).length) with
    | some a2 => .ok { t with array := a2, count := t.count - 1 }
    | none => .error .modelTimeout

/-- Modelled from the spec: `keys()` of the nested table, in native slot
order. -/
def lptKeys {α : Type} (t : LPT α) : List String :=
  t.array.reduceOption.map (fun e => e.1)

/-- Modelled from the spec: `values()` of the nested table, in native slot
order. -/
def lptValues {α : Type} (t : LPT α) : List α :=
  t.array.reduceOption.map (fun e => e.2)

/-- The default `TABLE_SIZES` schedule of `DoubleKeyTable`. -/
def defaultSizes : List Nat :=
  [5, 13, 29, 53, 97, 193, 389, 769, 1543, 3079, 6151, 12289, 24593,
   49157, 98317, 196613, 393241, 786433, 1572869]

/-- The state of a `DoubleKeyTable`: top-level capacity schedule, the
nested tables' schedule, the schedule cursor `size_index`, the slot array
(each occupied slot holds `(first_key, nested_table)`), and the occupancy
counter `count`.  The counter is an `Int` because the source can drive it
negative (see claim C1). -/
structure DKT (α : Type) where
  sizes : List Nat
  internalSizes : List Nat
  sizeIndex : Nat
  array : Arr (LPT α)
  count : Int
  deriving Repr

/-- `DoubleKeyTable.__init__`: optional top-level and nested schedules,
both defaulting to `TABLE_SIZES` (a supplied top-level schedule also
becomes the nested default, since the source overwrites the class
attribute first). -/
def mkDKT (α : Type) (sizes? internalSizes? : Option (List Nat)) : DKT α :=
  let sizes := sizes?.getD defaultSizes
  let internal := internalSizes?.getD sizes
  ⟨sizes, internal, 0, List.replicate (sizes.getD 0 0) none, 0⟩

/-- `table_size`: the current top-level capacity. -/
def tableSize {α : Type} (s : DKT α) : Nat :=
  s.array.length

/-- `__len__`: returns `self.count`. -/
def dktLen {α : Type} (s : DKT α) : Int :=
  s.count

/-- Number of occupied top-level slots of an array (what the spec says
the count should equal). -/
def occupiedCount {α : Type} (a : Arr α) : Nat :=
  a.countP (fun sl => sl.isSome)

/-- `DoubleKeyTable._linear_probe`, scan loop.  `k2?` is the optional
second key; the `Bool` is `is_insert`.  The result carries the top-level
position and, when a second key was given, the nested position; the
returned state reflects the one mutation the source performs during a
probe: materialising a fresh nested table when an insert with a second
key lands on an empty slot.  Exhaustion of the scan raises `TableFull`
when inserting and `NotFound` otherwise. -/
def linearProbeAux {α : Type} (s : DKT α) (k1 : String) (k2? : Option String)
    (isInsert : Bool) : Nat → Nat → (Except PyErr (Nat × Option Nat)) × DKT α
  | _, 0 => ((if isInsert then .error .fullError else .error .keyError), s)
  | pos, fuel + 1 =>
    match idx s.array pos with
    | none =>
      if isInsert then
        match k2? with
        | none => (.ok (pos, none), s)
        | some k2 =>
          let ht := newLPT α s.internalSizes
          let s' := { s with array := s.array.set pos (some (k1, ht)) }
          match lptProbePos ht.array k2 true with
          | .ok p2 => (.ok (pos, some p2), s')
          | .error e => (.error e, s')
      else (.error .keyError, s)
    | some (k, ht) =>
      if k = k1 then
        match k2? with
        | none => (.ok (pos, none), s)
        | some k2 =>
          match lptProbePos ht.array k2 isInsert with
          | .ok p2 => (.ok (pos, some p2), s)
          | .error e => (.error e, s)
      else linearProbeAux s k1 k2? isInsert ((pos + 1) % s.array.length) fuel

/-- `DoubleKeyTable._linear_probe`: hash the first key, then scan at most
`table_size` slots. -/
def linearProbe {α : Type} (s : DKT α) (k1 : String) (k2? : Option String)
    (isInsert : Bool) : (Except PyErr (Nat × Option Nat)) × DKT α :=
  linearProbeAux s k1 k2? isInsert (polyHash s.array.length k1) s.array.length

/-- `DoubleKeyTable.__getitem__` with the state returned alongside the
result: probe for both positions with `is_insert=False`, then read
`self.array[position1][1].array[position2][1]`.  Reading through a `None`
or a missing nested position would be a Python `TypeError`; the probe's
success makes those branches unreachable. -/
def getItemSt {α : Type} (s : DKT α) (k1 k2 : String) :
    (Except PyErr α) × DKT α :=
  match linearProbe s k1 (some k2) false with
  | (.error e, s') => (.error e, s')
  | (.ok (p1, p2?), s') =>
    match p2? with
    | none => (.error .typeError, s')
    | some p2 =>
      match idx s'.array p1 with
      | none => (.error .typeError, s')
      | some (_, ht) =>
        match idx ht.array p2 with
        | none => (.error .typeError, s')
        | some (_, v) => (.ok v, s')

/-- `DoubleKeyTable.__getitem__`, result only. -/
def getItem {α : Type} (s : DKT α) (k1 k2 : String) : Except PyErr α :=
  (getItemSt s k1 k2).1

/-- `DoubleKeyTable.__contains__`: try the lookup, catching `KeyError`
only. -/
def containsItem {α : Type} (s : DKT α) (k1 k2 : String) :
    Except PyErr Bool :=
  match getItem s k1 k2 with
  | .ok _ => .ok true
  | .error .keyError => .ok false
  | .error e => .error e

/-- `DoubleKeyTable._rehash`: advance the size index, and only then check
the schedule; when exhausted, return with the index already advanced (the
array, capacity and count untouched).  Otherwise allocate the next
capacity, reset the count to zero, and re-insert every old entry by a
fresh probe — without ever restoring the count (the source slip behind
claims C1 and C2). -/
def rehash {α : Type} (s : DKT α) : (Except PyErr Unit) × DKT α :=
  if s.sizeIndex + 1 ≥ s.sizes.length then
    (.ok (), { s with sizeIndex := s.sizeIndex + 1 })
  else
    match rebuildFold
        (List.replicate (s.sizes.getD (s.sizeIndex + 1) 0) none) s.array with
    | (.ok _, a') =>
      (.ok (), { s with sizeIndex := s.sizeIndex + 1, array := a', count := 0 })
    | (.error e, a') =>
      (.error e, { s with sizeIndex := s.sizeIndex + 1, array := a', count := 0 })

/-- `DoubleKeyTable.__setitem__`: probe with `is_insert=True` (which may
materialise a fresh nested table), bump the count when the nested table
was empty, delegate the write to the nested table, then resize when the
count exceeds half the capacity. -/
def setItem {α : Type} (s : DKT α) (k1 k2 : String) (v : α) :
    (Except PyErr Unit) × DKT α :=
  match linearProbe s k1 (some k2) true with
  | (.error e, s') => (.error e, s')
  | (.ok (p1, _), s') =>
    match idx s'.array p1 with
    | none => (.error .typeError, s')
    | some (k, sub) =>
      let cnt := if sub.count = 0 then s'.count + 1 else s'.count
      match lptSet sub k2 v with
      | .error e => (.error e, { s' with count := cnt })
      | .ok sub' =>
        let s₂ := { s' with array := s'.array.set p1 (some (k, sub')),
                            count := cnt }
        if 2 * s₂.count > (s₂.array.length : Int) then rehash s₂
        else (.ok (), s₂)

/-- `DoubleKeyTable.__delitem__`: locate both positions with
`is_insert=False`, delete inside the nested table, and if it became empty
re-locate the top-level slot, vacate it, decrement the count, and run the
forward cluster-repair walk from the next position. -/
def delItem {α : Type} (s : DKT α) (k1 k2 : String) :
    (Except PyErr Unit) × DKT α :=
  match linearProbe s k1 (some k2) false with
  | (.error e, s') => (.error e, s')
  | (.ok (p1, _), s') =>
    match idx s'.array p1 with
    | none => (.error .typeError, s')
    | some (k, sub) =>
      match lptDelete sub k2 with
      | .error e => (.error e, s')
      | .ok sub' =>
        let s₂ := { s' with array := s'.array.set p1 (some (k, sub')) }
        if sub'.count = 0 then
          match linearProbe s₂ k1 none false with
          | (.error e, s₃) => (.error e, s₃)
          | (.ok (cp, _), s₃) =>
            let a₀ := s₃.array.set cp none
            let cnt := s₃.count - 1
            match repairWalk a₀ ((cp + 1) % a₀.length) (walkFuel a₀.length) with
            | some a' => (.ok (), { s₃ with array := a', count := cnt })
            | none => (.error .modelTimeout, { s₃ with array := a₀, count := cnt })
        else (.ok (), s₂)

/-- `DoubleKeyTable.keys(None)` / the `key is None` arm of `iter_keys`:
every present first key in slot order. -/
def topKeys {α : Type} (s : DKT α) : List String :=
  s.array.reduceOption.map (fun e => e.1)

/-- `DoubleKeyTable.iter_keys`: with no key, the top-level keys in slot
order; with a first key, the source locates the entry tuple and then
executes `yield from tpl_entry[0].keys()` — but `tpl_entry[0]` is the
first key itself (a `str`), which has no `keys` attribute, so iterating
raises `AttributeError`; an absent first key raises `KeyError` from the
probe. -/
def iterKeys {α : Type} (s : DKT α) (key? : Option String) :
    Except PyErr (List String) :=
  match key? with
  | none => .ok (topKeys s)
  | some k1 =>
    match (linearProbe s k1 none false).1 with
    | .error e => .error e
    | .ok _ => .error .attributeError

/-- `DoubleKeyTable.keys(k1)` for a given first key: locate the entry and
return the nested table's keys (`tpl_entry[1].keys()`). -/
def keysOf {α : Type} (s : DKT α) (k1 : String) :
    Except PyErr (List String) :=
  match (linearProbe s k1 none false).1 with
  | .error e => .error e
  | .ok (p1, _) =>
    match idx s.array p1 with
    | none => .error .typeError
    | some (_, ht) => .ok (lptKeys ht)

/-- `DoubleKeyTable.values(k1)` for a given first key. -/
def valuesOf {α : Type} (s : DKT α) (k1 : String) :
    Except PyErr (List α) :=
  match (linearProbe s k1 none false).1 with
  | .error e => .error e
  | .ok (p1, _) =>
    match idx s.array p1 with
    | none => .error .typeError
    | some (_, ht) => .ok (lptValues ht)

/-- Run a sequence of `set` operations left to right, stopping at the
first failure. -/
def runSets {α : Type} (s : DKT α) :
    List (String × String × α) → Except PyErr (DKT α)
  | [] => .ok s
  | (k1, k2, v) :: rest =>
    match setItem s k1 k2 v with
    | (.ok _, s') => runSets s' rest
    | (.error e, _) => .error e

/-! ### Basic array lemmas -/

theorem idx_of_ge {α : Type} (a : Arr α) (i : Nat) (h : a.length ≤ i) :
    idx a i = none := by
  simp [idx, List.getD_eq_getElem?_getD, List.getElem?_eq_none h]

theorem idx_some_lt {α : Type} {a : Arr α} {i : Nat} {e : String × α}
    (h : idx a i = some e) : i < a.length := by
  by_contra hlt
  rw [idx_of_ge a i (Nat.le_of_not_lt hlt)] at h
  exact Option.noConfusion h

theorem length_set {α : Type} (a : Arr α) (i : Nat) (x : Slot α) :
    (a.set i x).length = a.length :=
  List.length_set a i x

theorem idx_set_eq {α : Type} (a : Arr α) (i : Nat) (x : Slot α)
    (h : i < a.length) : idx (a.set i x) i = x := by
  simp [idx, List.getD_eq_getElem?_getD, List.getElem?_set_self h]

theorem idx_set_ne {α : Type} (a : Arr α) (i j : Nat) (x : Slot α)
    (h : i ≠ j) : idx (a.set i x) j = idx a j := by
  simp [idx, List.getD_eq_getElem?_getD, List.getElem?_set_ne h]

theorem set_idx_self {α : Type} (a : Arr α) (i : Nat)
    (h : i < a.length) : a.set i (idx a i) = a := by
  have hv : idx a i = a[i] := by
    simp [idx, List.getD_eq_getElem?_getD, List.getElem?_eq_getElem h]
  rw [hv]
  apply List.ext_getElem
  · simp
  · intro j h1 h2
    by_cases hij : i = j
    · subst hij; simp [List.getElem_set]
    · simp [List.getElem_set, hij]

/-! ### Hash range -/

theorem polyHash_lt (n : Nat) (k : String) (hn : 0 < n) : polyHash n k < n := by
  suffices h : ∀ (l : List Char) (st : Nat × Nat), st.1 < n →
      (l.foldl (hashStep n) st).1 < n from h k.data (0, 31417) hn
  intro l
  induction l with
  | nil => intro st h; exact h
  | cons c rest ih =>
    intro st h
    exact ih (hashStep n st c) (Nat.mod_lt _ hn)

/-! ### Cyclic paths and probe characterisations

`pathClear a k pos d` states that the `d` slots scanned from `pos` are all
occupied by keys different from `k`: exactly the condition under which the
probe loop keeps advancing. -/

def pathClear {α : Type} (a : Arr α) (k : String) (pos d : Nat) : Prop :=
  ∀ j, j < d → ∃ kj vj,
    idx a ((pos + j) % a.length) = some (kj, vj) ∧ kj ≠ k

theorem pathClear_zero {α : Type} (a : Arr α) (k : String) (pos : Nat) :
    pathClear a k pos 0 := by
  intro j hj; omega

theorem pathClear_mod {α : Type} (a : Arr α) (k : String) (pos d : Nat)
    (h : pathClear a k pos d) : pathClear a k (pos % a.length) d := by
  intro j hj
  rw [Nat.mod_add_mod]
  exact h j hj

theorem pathClear_succ_iff {α : Type} (a : Arr α) (k : String) (pos d : Nat)
    (hpos : pos % a.length = pos) :
    pathClear a k pos (d + 1) ↔
      (∃ k0 v0, idx a pos = some (k0, v0) ∧ k0 ≠ k) ∧
        pathClear a k (pos + 1) d := by
  constructor
  · intro h
    refine ⟨by simpa [hpos] using h 0 (Nat.succ_pos d), ?_⟩
    intro j hj
    have := h (j + 1) (by omega)
    simpa [Nat.add_assoc, Nat.add_comm 1 j] using this
  · rintro ⟨⟨k0, v0, h0, hne⟩, h⟩
    intro j hj
    match j with
    | 0 => exact ⟨k0, v0, by simpa [hpos] using h0, hne⟩
    | j + 1 =>
      have := h j (by omega)
      simpa [Nat.add_assoc, Nat.add_comm 1 j] using this

theorem probeAux_succ {α : Type} (a : Arr α) (k : String) (pos fuel : Nat) :
    probeAux a k pos (fuel + 1) =
      match idx a pos with
      | none => .empty pos
      | some (k', _) =>
        if k' = k then .found pos
        else probeAux a k ((pos + 1) % a.length) fuel := rfl

theorem probeAux_empty_spec {α : Type} (a : Arr α) (k : String) :
    ∀ (fuel pos q : Nat), pos < a.length →
      probeAux a k pos fuel = .empty q →
      ∃ d, d < fuel ∧ q = (pos + d) % a.length ∧ idx a q = none ∧
        pathClear a k pos d := by
  intro fuel
  induction fuel with
  | zero => intro pos q _ h; exact absurd h (by simp [probeAux])
  | succ fuel ih =>
    intro pos q hpos h
    have hn : 0 < a.length := Nat.lt_of_le_of_lt (Nat.zero_le _) hpos
    rw [probeAux] at h
    match hidx : idx a pos with
    | none =>
      rw [hidx] at h
      refine ⟨0, Nat.succ_pos _, ?_, ?_, ?_⟩
      · cases h; rw [Nat.add_zero, Nat.mod_eq_of_lt hpos]
      · cases h; exact hidx
      · intro j hj; omega
    | some (k', v') =>
      rw [hidx] at h
      by_cases hk : k' = k
      · simp [hk] at h
      · simp only [if_neg hk] at h
        obtain ⟨d, hd, hq, hqe, hpath⟩ :=
          ih ((pos + 1) % a.length) q (Nat.mod_lt _ hn) h
        refine ⟨d + 1, by omega, ?_, hqe, ?_⟩
        · rw [hq, Nat.mod_add_mod]
          congr 1
          omega
        · rw [pathClear_succ_iff a k pos d (Nat.mod_eq_of_lt hpos)]
          refine ⟨⟨k', v', hidx, hk⟩, ?_⟩
          intro j hj
          have := hpath j hj
          rwa [Nat.mod_add_mod] at this

theorem probeAux_found_spec {α : Type} (a : Arr α) (k : String) :
    ∀ (fuel pos q : Nat), pos < a.length →
      probeAux a k pos fuel = .found q →
      ∃ d, d < fuel ∧ q = (pos + d) % a.length ∧
        (∃ v, idx a q = some (k, v)) ∧ pathClear a k pos d := by
  intro fuel
  induction fuel with
  | zero => intro pos q _ h; exact absurd h (by simp [probeAux])
  | succ fuel ih =>
    intro pos q hpos h
    have hn : 0 < a.length := Nat.lt_of_le_of_lt (Nat.zero_le _) hpos
    rw [probeAux] at h
    match hidx : idx a pos with
    | none => rw [hidx] at h; exact absurd h (by simp)
    | some (k', v') =>
      rw [hidx] at h
      by_cases hk : k' = k
      · simp only [if_pos hk] at h
        refine ⟨0, Nat.succ_pos _, ?_, ?_, ?_⟩
        · cases h; rw [Nat.add_zero, Nat.mod_eq_of_lt hpos]
        · cases h
          refine ⟨v', ?_⟩
          rw [← hk]
          exact hidx
        · intro j hj; omega
      · simp only [if_neg hk] at h
        obtain ⟨d, hd, hq, hqv, hpath⟩ :=
          ih ((pos + 1) % a.length) q (Nat.mod_lt _ hn) h
        refine ⟨d + 1, by omega, ?_, hqv, ?_⟩
        · rw [hq, Nat.mod_add_mod]
          congr 1
          omega
        · rw [pathClear_succ_iff a k pos d (Nat.mod_eq_of_lt hpos)]
          refine ⟨⟨k', v', hidx, hk⟩, ?_⟩
          intro j hj
          have := hpath j hj
          rwa [Nat.mod_add_mod] at this

theorem probeAux_exhausted_spec {α : Type} (a : Arr α) (k : String) :
    ∀ (fuel pos : Nat), pos < a.length →
      probeAux a k pos fuel = .exhausted → pathClear a k pos fuel := by
  intro fuel
  induction fuel with
  | zero => intro pos _ _ j hj; omega
  | succ fuel ih =>
    intro pos hpos h
    have hn : 0 < a.length := Nat.lt_of_le_of_lt (Nat.zero_le _) hpos
    rw [probeAux] at h
    match hidx : idx a pos with
    | none => rw [hidx] at h; exact absurd h (by simp)
    | some (k', v') =>
      rw [hidx] at h
      by_cases hk : k' = k
      · simp [hk] at h
      · simp only [if_neg hk] at h
        have hpath := ih ((pos + 1) % a.length) (Nat.mod_lt _ hn) h
        rw [pathClear_succ_iff a k pos fuel (Nat.mod_eq_of_lt hpos)]
        refine ⟨⟨k', v', hidx, hk⟩, ?_⟩
        intro j hj
        have := hpath j hj
        rwa [Nat.mod_add_mod] at this

theorem probeAux_found_of_path {α : Type} (a : Arr α) (k : String) (v : α) :
    ∀ (d fuel pos : Nat), pos < a.length → d < fuel →
      pathClear a k pos d → idx a ((pos + d) % a.length) = some (k, v) →
      probeAux a k pos fuel = .found ((pos + d) % a.length) := by
  intro d
  induction d with
  | zero =>
    intro fuel pos hpos hf _ hq
    obtain ⟨fuel2, rfl⟩ : ∃ f, fuel = f + 1 := ⟨fuel - 1, by omega⟩
    have hpe : (pos + 0) % a.length = pos := by
      rw [Nat.add_zero, Nat.mod_eq_of_lt hpos]
    rw [hpe] at hq ⊢
    rw [probeAux_succ, hq]
    simp
  | succ d ih =>
    intro fuel pos hpos hf hpath hq
    have hn : 0 < a.length := Nat.lt_of_le_of_lt (Nat.zero_le _) hpos
    obtain ⟨fuel2, rfl⟩ : ∃ f, fuel = f + 1 := ⟨fuel - 1, by omega⟩
    obtain ⟨⟨k0, v0, h0, hne⟩, hrest⟩ :=
      (pathClear_succ_iff a k pos d (Nat.mod_eq_of_lt hpos)).1 hpath
    rw [probeAux_succ, h0]
    simp only [if_neg hne]
    have hq2 : idx a (((pos + 1) % a.length + d) % a.length) = some (k, v) := by
      rw [Nat.mod_add_mod]
      have h3 : pos + 1 + d = pos + (d + 1) := by omega
      rwa [h3]
    have hres := ih fuel2 ((pos + 1) % a.length) (Nat.mod_lt _ hn) (by omega)
      (pathClear_mod a k (pos + 1) d hrest) hq2
    have h4 : pos + 1 + d = pos + (d + 1) := by omega
    rw [hres, Nat.mod_add_mod, h4]

theorem probeAux_empty_of_path {α : Type} (a : Arr α) (k : String) :
    ∀ (d fuel pos : Nat), pos < a.length → d < fuel →
      pathClear a k pos d → idx a ((pos + d) % a.length) = none →
      probeAux a k pos fuel = .empty ((pos + d) % a.length) := by
  intro d
  induction d with
  | zero =>
    intro fuel pos hpos hf _ hq
    obtain ⟨fuel2, rfl⟩ : ∃ f, fuel = f + 1 := ⟨fuel - 1, by omega⟩
    have hpe : (pos + 0) % a.length = pos := by
      rw [Nat.add_zero, Nat.mod_eq_of_lt hpos]
    rw [hpe] at hq ⊢
    rw [probeAux_succ, hq]
  | succ d ih =>
    intro fuel pos hpos hf hpath hq
    have hn : 0 < a.length := Nat.lt_of_le_of_lt (Nat.zero_le _) hpos
    obtain ⟨fuel2, rfl⟩ : ∃ f, fuel = f + 1 := ⟨fuel - 1, by omega⟩
    obtain ⟨⟨k0, v0, h0, hne⟩, hrest⟩ :=
      (pathClear_succ_iff a k pos d (Nat.mod_eq_of_lt hpos)).1 hpath
    rw [probeAux_succ, h0]
    simp only [if_neg hne]
    have hq2 : idx a (((pos + 1) % a.length + d) % a.length) = none := by
      rw [Nat.mod_add_mod]
      have h3 : pos + 1 + d = pos + (d + 1) := by omega
      rwa [h3]
    have hres := ih fuel2 ((pos + 1) % a.length) (Nat.mod_lt _ hn) (by omega)
      (pathClear_mod a k (pos + 1) d hrest) hq2
    have h4 : pos + 1 + d = pos + (d + 1) := by omega
    rw [hres, Nat.mod_add_mod, h4]

/-! ### Well-formedness of a probing array

`ArrWF` is the representation invariant of one table level: keys are
unique, and every entry is reachable by probing from its hash (the probe
path to it is fully occupied by other keys).  This is the invariant the
spec states as "after any mutation, re-locating any present pair via the
probing procedure must yield the same pair's value". -/

def distinctKeys {α : Type} (a : Arr α) : Prop :=
  ∀ i j ki vi kj vj, idx a i = some (ki, vi) → idx a j = some (kj, vj) →
    ki = kj → i = j

def ReachEntry {α : Type} (a : Arr α) (k : String) (p : Nat) : Prop :=
  ∃ d, d < a.length ∧ (polyHash a.length k + d) % a.length = p ∧
    pathClear a k (polyHash a.length k) d

structure ArrWF {α : Type} (a : Arr α) : Prop where
  distinct : distinctKeys a
  reach : ∀ p k v, idx a p = some (k, v) → ReachEntry a k p

theorem probe_exhausted_of_len_zero {α : Type} (a : Arr α) (k : String)
    (h : a.length = 0) : probe a k = .exhausted := by
  rw [probe, h]
  rfl

theorem probe_found_of_wf {α : Type} {a : Arr α} {p : Nat} {k : String}
    {v : α} (wf : ArrWF a) (h : idx a p = some (k, v)) :
    probe a k = .found p := by
  obtain ⟨d, hd, hp, hpath⟩ := wf.reach p k v h
  have hn : 0 < a.length := Nat.lt_of_le_of_lt (Nat.zero_le _) (idx_some_lt h)
  have := probeAux_found_of_path a k v d a.length (polyHash a.length k)
    (polyHash_lt _ _ hn) hd hpath (by rw [hp]; exact h)
  rw [probe, this, hp]

theorem probe_empty_spec {α : Type} {a : Arr α} {k : String} {q : Nat}
    (h : probe a k = .empty q) :
    0 < a.length ∧ q < a.length ∧ idx a q = none ∧
      ∃ d, d < a.length ∧ q = (polyHash a.length k + d) % a.length ∧
        pathClear a k (polyHash a.length k) d := by
  rcases Nat.eq_zero_or_pos a.length with h0 | hn
  · rw [probe_exhausted_of_len_zero a k h0] at h
    exact absurd h (by simp)
  · obtain ⟨d, hd, hq, hqe, hpath⟩ := probeAux_empty_spec a k a.length
      (polyHash a.length k) q (polyHash_lt _ _ hn) h
    exact ⟨hn, by rw [hq]; exact Nat.mod_lt _ hn, hqe, d, hd, hq, hpath⟩

theorem probe_found_spec {α : Type} {a : Arr α} {k : String} {q : Nat}
    (h : probe a k = .found q) :
    0 < a.length ∧ q < a.length ∧ (∃ v, idx a q = some (k, v)) ∧
      ∃ d, d < a.length ∧ q = (polyHash a.length k + d) % a.length ∧
        pathClear a k (polyHash a.length k) d := by
  rcases Nat.eq_zero_or_pos a.length with h0 | hn
  · rw [probe_exhausted_of_len_zero a k h0] at h
    exact absurd h (by simp)
  · obtain ⟨d, hd, hq, hqv, hpath⟩ := probeAux_found_spec a k a.length
      (polyHash a.length k) q (polyHash_lt _ _ hn) h
    exact ⟨hn, by rw [hq]; exact Nat.mod_lt _ hn, hqv, d, hd, hq, hpath⟩

theorem probe_exhausted_path {α : Type} {a : Arr α} {k : String}
    (hn : 0 < a.length) (h : probe a k = .exhausted) :
    pathClear a k (polyHash a.length k) a.length :=
  probeAux_exhausted_spec a k a.length (polyHash a.length k)
    (polyHash_lt _ _ hn) h

/-- Under the invariant, a probe that does not end in `found` means the
key is absent. -/
theorem absent_of_probe_empty {α : Type} {a : Arr α} {k : String} {q : Nat}
    (wf : ArrWF a) (h : probe a k = .empty q) :
    ∀ p v, idx a p ≠ some (k, v) := by
  intro p v hidx
  rw [probe_found_of_wf wf hidx] at h
  exact ProbeOut.noConfusion h

theorem absent_of_probe_exhausted {α : Type} {a : Arr α} {k : String}
    (wf : ArrWF a) (h : probe a k = .exhausted) :
    ∀ p v, idx a p ≠ some (k, v) := by
  intro p v hidx
  rw [probe_found_of_wf wf hidx] at h
  exact ProbeOut.noConfusion h

/-! ### Preservation of paths and the invariant under updates -/

theorem pathClear_set_off {α : Type} {a : Arr α} {k : String} {pos d : Nat}
    (i : Nat) (x : Slot α)
    (hoff : ∀ j, j < d → (pos + j) % a.length ≠ i)
    (h : pathClear a k pos d) : pathClear (a.set i x) k pos d := by
  intro j hj
  rw [length_set, idx_set_ne a i _ x (Ne.symm (hoff j hj))]
  exact h j hj

/-- Updating a slot that is currently empty cannot break any probe path
(paths consist of occupied slots only). -/
theorem pathClear_set_of_unoccupied {α : Type} {a : Arr α} {k : String}
    {pos d i : Nat} (x : Slot α) (hi : idx a i = none)
    (h : pathClear a k pos d) : pathClear (a.set i x) k pos d := by
  refine pathClear_set_off i x ?_ h
  intro j hj he
  obtain ⟨kj, vj, hidx, _⟩ := h j hj
  rw [he, hi] at hidx
  exact Option.noConfusion hidx

/-- Overwriting the value of an entry (same key) cannot break any probe
path. -/
theorem pathClear_set_samekey {α : Type} {a : Arr α} {k k0 : String}
    {pos d i : Nat} {v0 : α} (v1 : α) (hi : idx a i = some (k0, v0))
    (h : pathClear a k pos d) :
    pathClear (a.set i (some (k0, v1))) k pos d := by
  intro j hj
  rw [length_set]
  by_cases he : (pos + j) % a.length = i
  · refine ⟨k0, v1, ?_, ?_⟩
    · rw [he, idx_set_eq a i _ (idx_some_lt hi)]
    · obtain ⟨kj, vj, hidx, hne⟩ := h j hj
      rw [he, hi] at hidx
      have : kj = k0 := by injection hidx with h2; injection h2 with h3 h4; exact h3.symm
      rwa [← this]
  · rw [idx_set_ne a i _ _ (Ne.symm he)]
    exact h j hj

theorem reachEntry_set_of_unoccupied {α : Type} {a : Arr α} {k : String}
    {p i : Nat} (x : Slot α) (hi : idx a i = none)
    (h : ReachEntry a k p) : ReachEntry (a.set i x) k p := by
  obtain ⟨d, hd, hp, hpath⟩ := h
  exact ⟨d, by rwa [length_set], by rwa [length_set],
    by rw [length_set]; exact pathClear_set_of_unoccupied x hi hpath⟩

theorem reachEntry_set_samekey {α : Type} {a : Arr α} {k k0 : String}
    {p i : Nat} {v0 : α} (v1 : α) (hi : idx a i = some (k0, v0))
    (h : ReachEntry a k p) :
    ReachEntry (a.set i (some (k0, v1))) k p := by
  obtain ⟨d, hd, hp, hpath⟩ := h
  exact ⟨d, by rwa [length_set], by rwa [length_set],
    by rw [length_set]; exact pathClear_set_samekey v1 hi hpath⟩

/-- Inserting a fresh key at the empty slot its probe returns preserves
the invariant. -/
theorem wf_set_insert {α : Type} {a : Arr α} {k : String} {q : Nat}
    (wf : ArrWF a) (hp : probe a k = .empty q) (v : α) :
    ArrWF (a.set q (some (k, v))) := by
  obtain ⟨hn, hqlt, hqe, d, hd, hq, hpath⟩ := probe_empty_spec hp
  have habs := absent_of_probe_empty wf hp
  constructor
  · intro i j ki vi kj vj hi hj hk
    by_cases hiq : i = q
    · by_cases hjq : j = q
      · rw [hiq, hjq]
      · rw [hiq, idx_set_eq a q _ hqlt] at hi
        rw [idx_set_ne a q j _ (fun h => hjq h.symm)] at hj
        have : ki = k := by injection hi with h2; injection h2 with h3 h4; exact h3.symm
        exact absurd hj (by rw [← hk, this]; exact habs j vj)
    · by_cases hjq : j = q
      · rw [idx_set_ne a q i _ (fun h => hiq h.symm)] at hi
        rw [hjq, idx_set_eq a q _ hqlt] at hj
        have : kj = k := by injection hj with h2; injection h2 with h3 h4; exact h3.symm
        exact absurd hi (by rw [hk, this]; exact habs i vi)
      · rw [idx_set_ne a q i _ (fun h => hiq h.symm)] at hi
        rw [idx_set_ne a q j _ (fun h => hjq h.symm)] at hj
        exact wf.distinct i j ki vi kj vj hi hj hk
  · intro p k1 v1 hidx
    by_cases hpq : p = q
    · rw [hpq, idx_set_eq a q _ hqlt] at hidx
      have hkk : k1 = k := by injection hidx with h2; injection h2 with h3 h4; exact h3.symm
      rw [hpq, hkk]
      refine ⟨d, by rwa [length_set], ?_, ?_⟩
      · rw [length_set, ← hq]
      · rw [length_set]
        exact pathClear_set_of_unoccupied _ hqe hpath
    · rw [idx_set_ne a q p _ (fun h => hpq h.symm)] at hidx
      exact reachEntry_set_of_unoccupied _ hqe (wf.reach p k1 v1 hidx)

/-- Overwriting the value of an existing entry preserves the invariant. -/
theorem wf_set_overwrite {α : Type} {a : Arr α} {p : Nat} {k : String}
    {v0 : α} (wf : ArrWF a) (hidx : idx a p = some (k, v0)) (v : α) :
    ArrWF (a.set p (some (k, v))) := by
  have hplt : p < a.length := idx_some_lt hidx
  constructor
  · intro i j ki vi kj vj hi hj hk
    by_cases hip : i = p
    · by_cases hjp : j = p
      · rw [hip, hjp]
      · rw [hip, idx_set_eq a p _ hplt] at hi
        rw [idx_set_ne a p j _ (fun h => hjp h.symm)] at hj
        have : ki = k := by injection hi with h2; injection h2 with h3 h4; exact h3.symm
        exact wf.distinct i j ki v0 kj vj (by rw [hip, hidx, this]) hj hk
    · by_cases hjp : j = p
      · rw [idx_set_ne a p i _ (fun h => hip h.symm)] at hi
        rw [hjp, idx_set_eq a p _ hplt] at hj
        have : kj = k := by injection hj with h2; injection h2 with h3 h4; exact h3.symm
        exact wf.distinct i j ki vi kj v0 hi (by rw [hjp, hidx, this]) hk
      · rw [idx_set_ne a p i _ (fun h => hip h.symm)] at hi
        rw [idx_set_ne a p j _ (fun h => hjp h.symm)] at hj
        exact wf.distinct i j ki vi kj vj hi hj hk
  · intro q k1 v1 hq
    by_cases hqp : q = p
    · rw [hqp, idx_set_eq a p _ hplt] at hq
      have hkk : k1 = k := by injection hq with h2; injection h2 with h3 h4; exact h3.symm
      rw [hqp, hkk]
      exact reachEntry_set_samekey v hidx (wf.reach p k v0 hidx)
    · rw [idx_set_ne a p q _ (fun h => hqp h.symm)] at hq
      exact reachEntry_set_samekey v hidx (wf.reach q k1 v1 hq)

/-! ### Cyclic-distance arithmetic -/

/-- Starting from `h` and advancing by the cyclic distance from `h` to `i`
lands on `i`. -/
theorem cyc_hit {n h i : Nat} (hh : h < n) (hi : i < n) :
    (h + (n + i - h) % n) % n = i := by
  rw [Nat.add_mod_mod]
  have h2 : h + (n + i - h) = n + i := by omega
  rw [h2, Nat.add_mod_left, Nat.mod_eq_of_lt hi]

/-- The cyclic distance from `h` to `(h + d) % n` is `d` when `d < n`. -/
theorem cyc_dist_of_hit {n h d : Nat} (hh : h < n) (hd : d < n) :
    (n + (h + d) % n - h) % n = d := by
  rcases Nat.lt_or_ge (h + d) n with hlt | hge
  · rw [Nat.mod_eq_of_lt hlt]
    have h3 : n + (h + d) - h = n + d := by omega
    rw [h3, Nat.add_mod_left, Nat.mod_eq_of_lt hd]
  · have ht : (h + d) % n = h + d - n := by
      have hn : 0 < n := by omega
      rw [Nat.mod_eq_sub_mod hge, Nat.mod_eq_of_lt (by omega)]
    rw [ht]
    have h3 : n + (h + d - n) - h = d := by omega
    rw [h3, Nat.mod_eq_of_lt hd]

/-- Advancing by distinct amounts below `n` from the same start lands on
distinct slots. -/
theorem cyc_inj {n h m1 m2 : Nat} (hh : h < n) (h1 : m1 < n) (h2 : m2 < n)
    (he : (h + m1) % n = (h + m2) % n) : m1 = m2 := by
  have e1 := cyc_dist_of_hit hh h1
  have e2 := cyc_dist_of_hit hh h2
  rw [he] at e1
  exact e1.symm.trans e2

/-! ### Sums over a range, the displacement potential, and the distance
to the first empty slot (termination measure of the repair walk) -/

def sumRange (n : Nat) (f : Nat → Nat) : Nat :=
  ((List.range n).map f).sum

theorem sumRange_succ (n : Nat) (f : Nat → Nat) :
    sumRange (n + 1) f = sumRange n f + f n := by
  simp [sumRange, List.range_succ]

theorem sumRange_congr (n : Nat) (f g : Nat → Nat)
    (h : ∀ i, i < n → f i = g i) : sumRange n f = sumRange n g := by
  induction n with
  | zero => rfl
  | succ n ih =>
    rw [sumRange_succ, sumRange_succ, ih (fun i hi => h i (by omega)),
      h n (by omega)]

theorem sumRange_le (n c : Nat) (f : Nat → Nat)
    (h : ∀ i, i < n → f i ≤ c) : sumRange n f ≤ n * c := by
  induction n with
  | zero => simp [sumRange]
  | succ n ih =>
    rw [sumRange_succ, Nat.succ_mul]
    exact Nat.add_le_add (ih (fun i hi => h i (by omega))) (h n (by omega))

theorem le_sumRange (n i : Nat) (f : Nat → Nat) (h : i < n) :
    f i ≤ sumRange n f := by
  induction n with
  | zero => omega
  | succ n ih =>
    rw [sumRange_succ]
    by_cases hi : i = n
    · rw [hi]; omega
    · have := ih (by omega)
      omega

/-- Change of a range sum when two functions agree off one point. -/
theorem sumRange_congr_except (c : Nat) :
    ∀ (n : Nat) (f g : Nat → Nat), c < n →
      (∀ j, j < n → j ≠ c → f j = g j) →
      sumRange n f + g c = sumRange n g + f c := by
  intro n
  induction n with
  | zero => intro f g hc; omega
  | succ n ih =>
    intro f g hc h
    rw [sumRange_succ, sumRange_succ]
    by_cases hcn : c = n
    · have hs : sumRange n f = sumRange n g :=
        sumRange_congr n f g (fun i hi => h i (by omega) (by omega))
      rw [hcn]
      omega
    · have := ih f g (by omega) (fun j hj hne => h j (by omega) hne)
      have hn := h n (by omega) (fun he => hcn he.symm)
      omega

/-- Change of a range sum when two functions agree off two points. -/
theorem sumRange_congr_except2 (c t n : Nat) (f g : Nat → Nat)
    (hc : c < n) (ht : t < n) (hct : c ≠ t)
    (h : ∀ j, j < n → j ≠ c → j ≠ t → f j = g j) :
    sumRange n f + g c + g t = sumRange n g + f c + f t := by
  classical
  set m : Nat → Nat := fun j => if j = c then g c else f j with hm
  have htc : t ≠ c := fun he => hct he.symm
  have h1 : sumRange n f + m c = sumRange n m + f c := by
    refine sumRange_congr_except c n f m hc ?_
    intro j hj hne
    simp [hm, hne]
  have hmc : m c = g c := by simp [hm]
  have h2 : sumRange n m + g t = sumRange n g + m t := by
    refine sumRange_congr_except t n m g ht ?_
    intro j hj hne
    by_cases hjc : j = c
    · simp [hm, hjc]
    · simp only [hm]
      rw [if_neg hjc]
      exact h j hj hjc hne
  have hmt : m t = f t := by simp [hm, htc]
  omega

/-- Displacement of the entry in slot `i`: its cyclic distance from its
hash position (0 for an empty slot). -/
def dispAt {α : Type} (a : Arr α) (i : Nat) : Nat :=
  match idx a i with
  | some (k, _) => (a.length + i - polyHash a.length k) % a.length
  | none => 0

/-- The total displacement potential of the array. -/
def phi {α : Type} (a : Arr α) : Nat :=
  sumRange a.length (dispAt a)

theorem dispAt_lt {α : Type} (a : Arr α) (i : Nat) (hn : 0 < a.length) :
    dispAt a i < a.length := by
  rw [dispAt]
  match idx a i with
  | some (k, _) => exact Nat.mod_lt _ hn
  | none => exact hn

theorem phi_le {α : Type} (a : Arr α) :
    phi a ≤ a.length * a.length := by
  rcases Nat.eq_zero_or_pos a.length with h0 | hn
  · rw [phi, h0]; exact Nat.le_refl 0
  · exact sumRange_le _ _ _ (fun i hi => Nat.le_of_lt (dispAt_lt a i hn))

/-- There is an empty slot within the array bounds. -/
def EmptyExists {α : Type} (a : Arr α) : Prop :=
  ∃ i, i < a.length ∧ idx a i = none

/-- Scan for the first empty slot from `c`. -/
def distEAux {α : Type} (a : Arr α) : Nat → Nat → Option Nat
  | _, 0 => none
  | c, fuel + 1 =>
    match idx a c with
    | none => some 0
    | some _ => (distEAux a ((c + 1) % a.length) fuel).map (fun x => x + 1)

/-- Cyclic distance from `c` to the first empty slot. -/
def distE {α : Type} (a : Arr α) (c : Nat) : Nat :=
  (distEAux a c a.length).getD 0

theorem distEAux_some_spec {α : Type} (a : Arr α) :
    ∀ (fuel c d : Nat), c < a.length →
      distEAux a c fuel = some d →
      d < fuel ∧ idx a ((c + d) % a.length) = none ∧
        ∀ j, j < d → idx a ((c + j) % a.length) ≠ none := by
  intro fuel
  induction fuel with
  | zero => intro c d _ h; exact absurd h (by simp [distEAux])
  | succ fuel ih =>
    intro c d hc h
    have hn : 0 < a.length := by omega
    rw [distEAux] at h
    match hidx : idx a c with
    | none =>
      rw [hidx] at h
      have hd : d = 0 := by
        simp at h
        omega
      subst hd
      refine ⟨by omega, ?_, by omega⟩
      rw [Nat.add_zero, Nat.mod_eq_of_lt hc]
      exact hidx
    | some e =>
      rw [hidx] at h
      match hrec : distEAux a ((c + 1) % a.length) fuel with
      | none => rw [hrec] at h; exact absurd h (by simp)
      | some d0 =>
        rw [hrec] at h
        have hd : d = d0 + 1 := by
          simp at h
          omega
        subst hd
        obtain ⟨h1, h2, h3⟩ := ih ((c + 1) % a.length) d0 (Nat.mod_lt _ hn) hrec
        refine ⟨by omega, ?_, ?_⟩
        · rw [Nat.mod_add_mod] at h2
          have he : c + 1 + d0 = c + (d0 + 1) := by omega
          rwa [he] at h2
        · intro j hj
          match j with
          | 0 =>
            rw [Nat.add_zero, Nat.mod_eq_of_lt hc, hidx]
            exact fun hcon => Option.noConfusion hcon
          | j + 1 =>
            have := h3 j (by omega)
            rw [Nat.mod_add_mod] at this
            have he : c + 1 + j = c + (j + 1) := by omega
            rwa [he] at this

theorem distEAux_some_of_first {α : Type} (a : Arr α) :
    ∀ (d fuel c : Nat), c < a.length → d < fuel →
      idx a ((c + d) % a.length) = none →
      (∀ j, j < d → idx a ((c + j) % a.length) ≠ none) →
      distEAux a c fuel = some d := by
  intro d
  induction d with
  | zero =>
    intro fuel c hc hf he _
    obtain ⟨fuel2, rfl⟩ : ∃ f, fuel = f + 1 := ⟨fuel - 1, by omega⟩
    rw [Nat.add_zero, Nat.mod_eq_of_lt hc] at he
    rw [distEAux, he]
  | succ d ih =>
    intro fuel c hc hf he hocc
    have hn : 0 < a.length := by omega
    obtain ⟨fuel2, rfl⟩ : ∃ f, fuel = f + 1 := ⟨fuel - 1, by omega⟩
    have h0 := hocc 0 (by omega)
    rw [Nat.add_zero, Nat.mod_eq_of_lt hc] at h0
    match hidx : idx a c with
    | none => exact absurd hidx h0
    | some e =>
      rw [distEAux, hidx]
      have he2 : idx a (((c + 1) % a.length + d) % a.length) = none := by
        rw [Nat.mod_add_mod]
        have h3 : c + 1 + d = c + (d + 1) := by omega
        rwa [h3]
      have hocc2 : ∀ j, j < d →
          idx a (((c + 1) % a.length + j) % a.length) ≠ none := by
        intro j hj
        rw [Nat.mod_add_mod]
        have h3 : c + 1 + j = c + (j + 1) := by omega
        rw [h3]
        exact hocc (j + 1) (by omega)
      rw [ih fuel2 ((c + 1) % a.length) (Nat.mod_lt _ hn) (by omega) he2 hocc2]
      rfl

theorem distEAux_isSome_of_empty {α : Type} (a : Arr α) (c : Nat)
    (hc : c < a.length) (hem : EmptyExists a) :
    ∃ d, distEAux a c a.length = some d := by
  classical
  obtain ⟨i, hi, hie⟩ := hem
  have hn : 0 < a.length := by omega
  have hex : ∃ d, d < a.length ∧ idx a ((c + d) % a.length) = none :=
    ⟨(a.length + i - c) % a.length, Nat.mod_lt _ hn,
      by rw [cyc_hit hc hi]; exact hie⟩
  refine ⟨Nat.find hex, distEAux_some_of_first a (Nat.find hex) a.length c hc
    (Nat.find_spec hex).1 (Nat.find_spec hex).2 ?_⟩
  intro j hj hje
  exact absurd ⟨Nat.lt_trans hj (Nat.find_spec hex).1, hje⟩
    (Nat.find_min hex hj)

theorem distE_spec {α : Type} {a : Arr α} {c : Nat} (hc : c < a.length)
    (hem : EmptyExists a) :
    distE a c < a.length ∧ idx a ((c + distE a c) % a.length) = none ∧
      ∀ j, j < distE a c → idx a ((c + j) % a.length) ≠ none := by
  obtain ⟨d, hd⟩ := distEAux_isSome_of_empty a c hc hem
  have hs := distEAux_some_spec a a.length c d hc hd
  have he : distE a c = d := by rw [distE, hd]; rfl
  rw [he]
  exact hs

theorem distE_lt {α : Type} {a : Arr α} {c : Nat} (hc : c < a.length)
    (hem : EmptyExists a) : distE a c < a.length :=
  (distE_spec hc hem).1

theorem distE_shift {α : Type} {a : Arr α} {c : Nat} (hc : c < a.length)
    (hocc : idx a c ≠ none) (hem : EmptyExists a) :
    distE a ((c + 1) % a.length) + 1 = distE a c := by
  have hn : 0 < a.length := by omega
  obtain ⟨hd, he, hmin⟩ := distE_spec hc hem
  have hd1 : 1 ≤ distE a c := by
    by_contra h0
    have h1 : distE a c = 0 := by omega
    rw [h1, Nat.add_zero, Nat.mod_eq_of_lt hc] at he
    exact hocc he
  have hgoal : distEAux a ((c + 1) % a.length) a.length
      = some (distE a c - 1) := by
    apply distEAux_some_of_first a _ a.length _ (Nat.mod_lt _ hn) (by omega)
    · rw [Nat.mod_add_mod]
      have h3 : c + 1 + (distE a c - 1) = c + distE a c := by omega
      rw [h3]; exact he
    · intro j hj
      rw [Nat.mod_add_mod]
      have h3 : c + 1 + j = c + (j + 1) := by omega
      rw [h3]
      exact hmin (j + 1) (by omega)
  have hshift : distE a ((c + 1) % a.length) = distE a c - 1 := by
    have h4 : distE a ((c + 1) % a.length)
        = (distEAux a ((c + 1) % a.length) a.length).getD 0 := rfl
    rw [h4, hgoal]
    rfl
  omega

/-! ### Congruence of the measure under pointwise-equal arrays -/

theorem dispAt_congr_at {α : Type} {a b : Arr α} (hl : a.length = b.length)
    {j : Nat} (hj : idx a j = idx b j) : dispAt a j = dispAt b j := by
  rw [dispAt, dispAt, hj, hl]

theorem phi_congr {α : Type} {a b : Arr α} (hl : a.length = b.length)
    (h : ∀ j, idx a j = idx b j) : phi a = phi b := by
  rw [phi, phi, ← hl]
  exact sumRange_congr _ _ _ (fun i _ => dispAt_congr_at hl (h i))

theorem distEAux_congr {α : Type} {a b : Arr α} (hl : a.length = b.length)
    (h : ∀ j, idx a j = idx b j) :
    ∀ (fuel c : Nat), distEAux a c fuel = distEAux b c fuel := by
  intro fuel
  induction fuel with
  | zero => intro c; rfl
  | succ fuel ih =>
    intro c
    rw [distEAux, distEAux, ← h c, ← hl, ih ((c + 1) % a.length)]

theorem distE_congr {α : Type} {a b : Arr α} (hl : a.length = b.length)
    (h : ∀ j, idx a j = idx b j) (c : Nat) : distE a c = distE b c := by
  rw [distE, distE, ← hl, distEAux_congr hl h]

/-! ### Occupancy counting -/

theorem occupiedCount_set {α : Type} :
    ∀ (a : Arr α) (i : Nat) (x : Slot α), i < a.length →
      occupiedCount (a.set i x) + (if (idx a i).isSome then 1 else 0)
        = occupiedCount a + (if x.isSome then 1 else 0) := by
  intro a
  induction a with
  | nil => intro i x h; simp at h
  | cons hd tl ih =>
    intro i x h
    match i with
    | 0 =>
      simp only [List.set_cons_zero, occupiedCount, List.countP_cons, idx,
        List.getD_cons_zero]
      omega
    | i + 1 =>
      simp only [List.set_cons_succ, occupiedCount, List.countP_cons, idx,
        List.getD_cons_succ]
      have hlt : i < tl.length := by
        simp only [List.length_cons] at h
        omega
      have := ih i x hlt
      simp only [occupiedCount, idx] at this
      omega

/-! ### Elimination for reads of updated arrays, distinctness helpers -/

theorem idx_set_some_elim {α : Type} {a : Arr α} {c : Nat} {x : Slot α}
    {i : Nat} {e : String × α} (hc : c < a.length)
    (h : idx (a.set c x) i = some e) :
    (i = c ∧ x = some e) ∨ (i ≠ c ∧ idx a i = some e) := by
  by_cases hic : i = c
  · left; exact ⟨hic, by rw [← h, hic, idx_set_eq a c x hc]⟩
  · right; exact ⟨hic, by rw [← h, idx_set_ne a c i x (fun h2 => hic h2.symm)]⟩

theorem distinct_set_none {α : Type} {a : Arr α} (hdk : distinctKeys a)
    {c : Nat} (hc : c < a.length) : distinctKeys (a.set c none) := by
  intro i j ki vi kj vj hi hj hk
  rcases idx_set_some_elim hc hi with ⟨_, hx⟩ | ⟨_, hai⟩
  · exact absurd hx (by simp)
  · rcases idx_set_some_elim hc hj with ⟨_, hx⟩ | ⟨_, haj⟩
    · exact absurd hx (by simp)
    · exact hdk i j ki vi kj vj hai haj hk

theorem distinct_insert_fresh {α : Type} {b : Arr α} {k : String} {t : Nat}
    (v : α) (hdk : distinctKeys b) (ht : t < b.length)
    (habs : ∀ p w, idx b p ≠ some (k, w)) :
    distinctKeys (b.set t (some (k, v))) := by
  intro i j ki vi kj vj hi hj hk
  rcases idx_set_some_elim ht hi with ⟨hic, hx⟩ | ⟨_, hbi⟩
  · rcases idx_set_some_elim ht hj with ⟨hjc, _⟩ | ⟨_, hbj⟩
    · rw [hic, hjc]
    · have hki : ki = k := by
        injection hx with h2; injection h2 with h3 _; exact h3.symm
      exact absurd hbj (by rw [← hk, hki]; exact habs j vj)
  · rcases idx_set_some_elim ht hj with ⟨_, hx⟩ | ⟨_, hbj⟩
    · have hkj : kj = k := by
        injection hx with h2; injection h2 with h3 _; exact h3.symm
      exact absurd hbi (by rw [hk, hkj]; exact habs i vi)
    · exact hdk i j ki vi kj vj hbi hbj hk

/-- A pair `(k, v)` is stored somewhere in the array. -/
def HasPair {α : Type} (a : Arr α) (k : String) (v : α) : Prop :=
  ∃ i, idx a i = some (k, v)

/-- `p` lies in the contiguous occupied run that starts at `c`. -/
def InRun {α : Type} (a : Arr α) (c p : Nat) : Prop :=
  ∃ i, i < a.length ∧ p = (c + i) % a.length ∧
    ∀ j, j ≤ i → idx a ((c + j) % a.length) ≠ none

theorem probe_ne_exhausted_of_empty {α : Type} {b : Arr α} {k : String}
    {i : Nat} (hi : i < b.length) (he : idx b i = none) :
    probe b k ≠ .exhausted := by
  intro h
  have hn : 0 < b.length := by omega
  have hpath := probe_exhausted_path hn h
  have hh : polyHash b.length k < b.length := polyHash_lt _ _ hn
  obtain ⟨kj, vj, hidx, _⟩ :=
    hpath ((b.length + i - polyHash b.length k) % b.length) (Nat.mod_lt _ hn)
  rw [cyc_hit hh hi, he] at hidx
  exact Option.noConfusion hidx

theorem repairWalk_succ {α : Type} (a : Arr α) (pos fuel : Nat) :
    repairWalk a pos (fuel + 1) =
      match idx a pos with
      | none => some a
      | some (k, v) =>
        match probe (a.set pos none) k with
        | .empty q =>
          repairWalk ((a.set pos none).set q (some (k, v)))
            ((pos + 1) % a.length) fuel
        | .found q =>
          repairWalk ((a.set pos none).set q (some (k, v)))
            ((pos + 1) % a.length) fuel
        | .exhausted => none := rfl

/-! ### Transfer of the walk invariant: vacating the walk front, filling
the probe target -/

/-- Vacating the occupied slot `c` moves the invariant from front `c` to
front `(c+1) % n`: every entry that was reachable stays reachable unless
its probe path crossed `c`, in which case it lies in the occupied run
after `c`. -/
theorem entries_clear {α : Type} {a : Arr α} {c : Nat} {k : String} {v : α}
    (hc : c < a.length) (_hck : idx a c = some (k, v))
    (hinv : ∀ p k1 v1, idx a p = some (k1, v1) →
      ReachEntry a k1 p ∨ InRun a c p) :
    ∀ p k1 v1, idx (a.set c none) p = some (k1, v1) →
      ReachEntry (a.set c none) k1 p ∨
        InRun (a.set c none) ((c + 1) % a.length) p := by
  intro p k1 v1 hp
  have hn : 0 < a.length := by omega
  rcases idx_set_some_elim hc hp with ⟨_, hx⟩ | ⟨hpc, hap⟩
  · exact absurd hx (by simp)
  · rcases hinv p k1 v1 hap with hreach | hrun
    · obtain ⟨d1, hd1, hhit, hpath⟩ := hreach
      by_cases hcpath : ∃ j, j < d1 ∧ (polyHash a.length k1 + j) % a.length = c
      · -- the path crossed `c`: the entry is in the run after `c`
        right
        obtain ⟨j, hj, hjc⟩ := hcpath
        simp only [InRun, length_set]
        refine ⟨d1 - j - 1, by omega, ?_, ?_⟩
        · rw [Nat.mod_add_mod, ← hjc, Nat.add_assoc, Nat.mod_add_mod, ← hhit]
          congr 1
          omega
        · intro j2 hj2
          have hposeq : ((c + 1) % a.length + j2) % a.length
              = (polyHash a.length k1 + (j + 1 + j2)) % a.length := by
            rw [Nat.mod_add_mod, ← hjc, Nat.add_assoc, Nat.mod_add_mod]
            congr 1
            omega
          rw [hposeq]
          by_cases hend : j + 1 + j2 = d1
          · rw [hend, hhit]
            intro hcon
            rw [hp] at hcon
            exact Option.noConfusion hcon
          · obtain ⟨kj, vj, hentry, _⟩ := hpath (j + 1 + j2) (by omega)
            have hnec : (polyHash a.length k1 + (j + 1 + j2)) % a.length ≠ c := by
              intro heq
              rw [← hjc] at heq
              have := cyc_inj (polyHash_lt _ _ hn) (show j + 1 + j2 < a.length by omega)
                (show j < a.length by omega) heq
              omega
            rw [idx_set_ne a c _ none (fun h2 => hnec h2.symm), hentry]
            intro hcon
            exact Option.noConfusion hcon
      · -- the path avoided `c`: still reachable
        left
        push_neg at hcpath
        simp only [ReachEntry, length_set]
        refine ⟨d1, hd1, hhit, ?_⟩
        refine pathClear_set_off c none ?_ hpath
        intro j hj
        exact hcpath j hj
    · -- already in the run: drop its first slot
      right
      obtain ⟨i, hi, hpi, hocc⟩ := hrun
      have hi1 : 1 ≤ i := by
        by_contra h0
        have h1 : i = 0 := by omega
        rw [h1, Nat.add_zero, Nat.mod_eq_of_lt hc] at hpi
        exact hpc hpi
      simp only [InRun, length_set]
      refine ⟨i - 1, by omega, ?_, ?_⟩
      · rw [Nat.mod_add_mod]
        have h3 : c + 1 + (i - 1) = c + i := by omega
        rw [h3]; exact hpi
      · intro j2 hj2
        rw [Nat.mod_add_mod]
        have h3 : c + 1 + j2 = c + (j2 + 1) := by omega
        rw [h3]
        have hne : (c + (j2 + 1)) % a.length ≠ c := by
          intro he
          have h4 : (c + (j2 + 1)) % a.length = (c + 0) % a.length := by
            rw [he, Nat.add_zero, Nat.mod_eq_of_lt hc]
          have := cyc_inj hc (show j2 + 1 < a.length by omega) hn h4
          omega
        rw [idx_set_ne a c _ none (fun h2 => hne h2.symm)]
        exact hocc (j2 + 1) (by omega)

/-- Re-inserting an entry at the empty slot returned by its probe
preserves the invariant (for any front `m`): occupancy only grows, and
the new entry is reachable by construction. -/
theorem entries_fill {α : Type} {b : Arr α} {t m : Nat} {k : String}
    (v : α) (hpr : probe b k = .empty t)
    (hinv : ∀ p k1 v1, idx b p = some (k1, v1) →
      ReachEntry b k1 p ∨ InRun b m p) :
    ∀ p k1 v1, idx (b.set t (some (k, v))) p = some (k1, v1) →
      ReachEntry (b.set t (some (k, v))) k1 p ∨
        InRun (b.set t (some (k, v))) m p := by
  obtain ⟨hn, htl, hte, d, hd, htd, hpath⟩ := probe_empty_spec hpr
  intro p k1 v1 hp
  rcases idx_set_some_elim htl hp with ⟨hpt, hx⟩ | ⟨_, hbp⟩
  · left
    have hk1 : k1 = k := by
      injection hx with h2; injection h2 with h3 _; exact h3.symm
    simp only [ReachEntry, length_set]
    refine ⟨d, hd, ?_, ?_⟩
    · rw [hk1, ← htd, hpt]
    · rw [hk1]
      exact pathClear_set_of_unoccupied _ hte hpath
  · rcases hinv p k1 v1 hbp with hreach | hrun
    · left
      exact reachEntry_set_of_unoccupied _ hte hreach
    · right
      obtain ⟨i, hi, hpi, hocc⟩ := hrun
      simp only [InRun, length_set]
      refine ⟨i, hi, hpi, ?_⟩
      intro j hj
      by_cases hjt : (m + j) % b.length = t
      · rw [hjt, idx_set_eq b t _ htl]
        simp
      · rw [idx_set_ne b t _ _ (fun he => hjt he.symm)]
        exact hocc j hj

/-- Main walk theorem: on an array with distinct keys, an empty slot, and
every entry either reachable or in the run after the front, the repair
walk terminates within the measure bound and restores full reachability,
preserving the multiset of stored pairs and the occupancy count. -/
theorem walk_main {α : Type} :
    ∀ (fuel : Nat) (a : Arr α) (c : Nat),
      phi a * a.length + distE a c < fuel →
      c < a.length → distinctKeys a → EmptyExists a →
      (∀ p k v, idx a p = some (k, v) → ReachEntry a k p ∨ InRun a c p) →
      ∃ a2, repairWalk a c fuel = some a2 ∧
        a2.length = a.length ∧ distinctKeys a2 ∧
        (∀ p k v, idx a2 p = some (k, v) → ReachEntry a2 k p) ∧
        (∀ k2 v2, HasPair a2 k2 v2 ↔ HasPair a k2 v2) ∧
        occupiedCount a2 = occupiedCount a := by
  intro fuel
  induction fuel with
  | zero => intro a c hM; omega
  | succ fuel ih =>
    intro a c hM hc hdk hem hinv
    have hn : 0 < a.length := by omega
    match hck : idx a c with
    | none =>
      refine ⟨a, ?_, rfl, hdk, ?_, fun k2 v2 => Iff.rfl, rfl⟩
      · simp only [repairWalk_succ, hck]
      · intro p k v hp
        rcases hinv p k v hp with h | h
        · exact h
        · obtain ⟨i, hi, hpi, hocc⟩ := h
          have h0 := hocc 0 (by omega)
          rw [Nat.add_zero, Nat.mod_eq_of_lt hc] at h0
          exact absurd hck h0
    | some (k, v) =>
      have hcne : idx a c ≠ none := by
        rw [hck]; exact fun h => Option.noConfusion h
      have hl1 : (a.set c none).length = a.length := length_set a c none
      have ha1c : idx (a.set c none) c = none := idx_set_eq a c none hc
      have hem1 : EmptyExists (a.set c none) :=
        ⟨c, by rw [hl1]; exact hc, ha1c⟩
      have hnex : probe (a.set c none) k ≠ .exhausted :=
        probe_ne_exhausted_of_empty (by rw [hl1]; exact hc) ha1c
      have hnfd : ∀ t, probe (a.set c none) k ≠ .found t := by
        intro t hf
        obtain ⟨_, _, ⟨w, hw⟩, _⟩ := probe_found_spec hf
        rcases idx_set_some_elim hc hw with ⟨_, hx⟩ | ⟨htc, hat⟩
        · exact Option.noConfusion hx
        · exact htc (hdk t c k w k v hat hck rfl)
      obtain ⟨t, hpr⟩ : ∃ t, probe (a.set c none) k = .empty t := by
        match hres : probe (a.set c none) k with
        | .empty t => exact ⟨t, rfl⟩
        | .found t => exact absurd hres (hnfd t)
        | .exhausted => exact absurd hres hnex
      obtain ⟨hn1, htl, hte, d1, hd1, htd, hpath⟩ := probe_empty_spec hpr
      rw [hl1] at htl hd1 htd hpath
      have htl2 : t < (a.set c none).length := by rw [hl1]; exact htl
      have hlen2 : ((a.set c none).set t (some (k, v))).length = a.length := by
        rw [length_set, hl1]
      have ha2t : idx ((a.set c none).set t (some (k, v))) t = some (k, v) :=
        idx_set_eq (a.set c none) t _ htl2
      -- distinctness of the stepped array
      have habs1 : ∀ p w, idx (a.set c none) p ≠ some (k, w) := by
        intro p w hpw
        rcases idx_set_some_elim hc hpw with ⟨_, hx⟩ | ⟨hpc, hap⟩
        · exact Option.noConfusion hx
        · exact hpc (hdk p c k w k v hap hck rfl)
      have hdk1 : distinctKeys (a.set c none) := distinct_set_none hdk hc
      have hdk2 : distinctKeys ((a.set c none).set t (some (k, v))) :=
        distinct_insert_fresh v hdk1 htl2 habs1
      -- an empty slot survives the step
      have hem2 : EmptyExists ((a.set c none).set t (some (k, v))) := by
        by_cases htc : t = c
        · obtain ⟨i0, hi0, hi0e⟩ := hem
          have hi0c : i0 ≠ c := by
            intro he
            rw [he, hck] at hi0e
            exact Option.noConfusion hi0e
          have hti0 : t ≠ i0 := by rw [htc]; exact fun he => hi0c he.symm
          refine ⟨i0, by rw [hlen2]; exact hi0, ?_⟩
          rw [idx_set_ne (a.set c none) t i0 _ hti0,
            idx_set_ne a c i0 none (fun he => hi0c he.symm)]
          exact hi0e
        · refine ⟨c, by rw [hlen2]; exact hc, ?_⟩
          rw [idx_set_ne (a.set c none) t c _ htc]
          exact ha1c
      -- entry invariant for the stepped array at the advanced front
      have hinv1 := entries_clear hc hck hinv
      have hinv2 := entries_fill v hpr hinv1
      -- pair preservation over the step
      have hpair : ∀ k2 v2,
          HasPair ((a.set c none).set t (some (k, v))) k2 v2 ↔
            HasPair a k2 v2 := by
        intro k2 v2
        constructor
        · rintro ⟨i, hi⟩
          rcases idx_set_some_elim htl2 hi with ⟨hit, hx⟩ | ⟨hit, h1i⟩
          · have hk2 : k = k2 ∧ v = v2 := by
              injection hx with h2; injection h2 with h3 h4; exact ⟨h3, h4⟩
            exact ⟨c, by rw [hck, hk2.1, hk2.2]⟩
          · rcases idx_set_some_elim hc h1i with ⟨_, hx⟩ | ⟨_, hai⟩
            · exact absurd hx (by simp)
            · exact ⟨i, hai⟩
        · rintro ⟨i, hi⟩
          by_cases hic : i = c
          · rw [hic, hck] at hi
            have hk2 : k = k2 ∧ v = v2 := by
              injection hi with h2; injection h2 with h3 h4; exact ⟨h3, h4⟩
            exact ⟨t, by rw [ha2t, hk2.1, hk2.2]⟩
          · have h1i : idx (a.set c none) i = some (k2, v2) := by
              rw [idx_set_ne a c i none (fun he => hic he.symm)]
              exact hi
            have hit : i ≠ t := by
              intro he
              rw [he, hte] at h1i
              exact Option.noConfusion h1i
            exact ⟨i, by
              rw [idx_set_ne (a.set c none) t i _ (fun he => hit he.symm)]
              exact h1i⟩
      -- occupancy preservation over the step
      have hoccstep :
          occupiedCount ((a.set c none).set t (some (k, v)))
            = occupiedCount a := by
        have h1 := occupiedCount_set a c none hc
        rw [hck] at h1
        simp only [Option.isSome_some, Option.isSome_none, if_pos, if_neg,
          Bool.false_eq_true, if_false, if_true] at h1
        have h2 := occupiedCount_set (a.set c none) t (some (k, v)) htl2
        rw [hte] at h2
        simp only [Option.isSome_some, Option.isSome_none, if_pos, if_neg,
          Bool.false_eq_true, if_false, if_true] at h2
        omega
      -- the measure strictly decreases
      have hMd : phi ((a.set c none).set t (some (k, v))) * a.length
          + distE ((a.set c none).set t (some (k, v))) ((c + 1) % a.length)
          < fuel := by
        by_cases htc : t = c
        · subst htc
          have hpoint : ∀ j,
              idx ((a.set t none).set t (some (k, v))) j = idx a j := by
            intro j
            by_cases hjc : j = t
            · rw [hjc, idx_set_eq (a.set t none) t _ htl2, hck]
            · rw [idx_set_ne (a.set t none) t j _ (fun he => hjc he.symm),
                idx_set_ne a t j none (fun he => hjc he.symm)]
          have hphi : phi ((a.set t none).set t (some (k, v))) = phi a :=
            phi_congr hlen2 hpoint
          have hdist : distE ((a.set t none).set t (some (k, v)))
              ((t + 1) % a.length) = distE a ((t + 1) % a.length) :=
            distE_congr hlen2 hpoint _
          have hshift := distE_shift hc hcne hem
          rw [hphi, hdist]
          omega
        · -- `t ≠ c`: the moved entry strictly decreases the potential
          have hh : polyHash a.length k < a.length := polyHash_lt _ _ hn
          have hcnet : c ≠ t := fun he => htc he.symm
          have hdC : (polyHash a.length k
              + (a.length + c - polyHash a.length k) % a.length) % a.length
              = c := cyc_hit hh hc
          have hdClt : (a.length + c - polyHash a.length k) % a.length
              < a.length := Nat.mod_lt _ hn
          -- d1 differs from dC (else t = c) and is not above it (else the
          -- path would cross the vacated slot)
          have hne1 : d1 ≠ (a.length + c - polyHash a.length k) % a.length := by
            intro he
            rw [he, hdC] at htd
            exact htc htd
          have hnlt : ¬ ((a.length + c - polyHash a.length k) % a.length < d1) := by
            intro hlt
            obtain ⟨kj, vj, hentry, _⟩ := hpath _ hlt
            rw [hl1, hdC, ha1c] at hentry
            exact Option.noConfusion hentry
          have hd1C : d1 < (a.length + c - polyHash a.length k) % a.length := by
            omega
          -- pointwise values of the displacement at the two changed slots
          have hta : idx a t = none := by
            rw [← idx_set_ne a c t none hcnet]
            exact hte
          have hdac : dispAt a c
              = (a.length + c - polyHash a.length k) % a.length := by
            rw [dispAt, hck]
          have hdat : dispAt a t = 0 := by
            rw [dispAt, hta]
          have hdA2c : dispAt ((a.set c none).set t (some (k, v))) c = 0 := by
            have : idx ((a.set c none).set t (some (k, v))) c = none := by
              rw [idx_set_ne (a.set c none) t c _ htc]
              exact ha1c
            rw [dispAt, this]
          have hdA2t : dispAt ((a.set c none).set t (some (k, v))) t = d1 := by
            rw [dispAt, ha2t, hlen2, htd]
            exact cyc_dist_of_hit hh hd1
          have hagree : ∀ j, j < a.length → j ≠ c → j ≠ t →
              dispAt ((a.set c none).set t (some (k, v))) j = dispAt a j := by
            intro j hj hjc hjt
            refine dispAt_congr_at hlen2 ?_
            rw [idx_set_ne (a.set c none) t j _ (fun he => hjt he.symm),
              idx_set_ne a c j none (fun he => hjc he.symm)]
          have hsum := sumRange_congr_except2 c t a.length
            (dispAt ((a.set c none).set t (some (k, v)))) (dispAt a)
            hc htl hcnet hagree
          have hphiA2 : phi ((a.set c none).set t (some (k, v)))
              = sumRange a.length
                  (dispAt ((a.set c none).set t (some (k, v)))) := by
            rw [phi, hlen2]
          have hphia : phi a = sumRange a.length (dispAt a) := rfl
          rw [hdac, hdat, hdA2c, hdA2t, ← hphiA2, ← hphia] at hsum
          -- hsum : phi A2 + dC + 0 = phi a + 0 + d1, with d1 < dC
          have hphidrop : phi ((a.set c none).set t (some (k, v))) + 1
              ≤ phi a := by omega
          have hmul : phi ((a.set c none).set t (some (k, v))) * a.length
              + a.length ≤ phi a * a.length := by
            have := Nat.mul_le_mul_right a.length hphidrop
            rw [Nat.succ_mul] at this
            exact this
          have hdlt : distE ((a.set c none).set t (some (k, v)))
              ((c + 1) % a.length) < a.length := by
            have h5 := distE_lt (a := (a.set c none).set t (some (k, v)))
              (c := (c + 1) % a.length)
              (by rw [hlen2]; exact Nat.mod_lt _ hn) hem2
            rw [hlen2] at h5
            exact h5
          omega
      -- recurse on the stepped array
      have hMd2 : phi ((a.set c none).set t (some (k, v)))
          * ((a.set c none).set t (some (k, v))).length
          + distE ((a.set c none).set t (some (k, v))) ((c + 1) % a.length)
          < fuel := by rw [hlen2]; exact hMd
      obtain ⟨a2, hwalk, hlen, hdk2f, hreach2, hpair2, hocc2⟩ :=
        ih ((a.set c none).set t (some (k, v))) ((c + 1) % a.length) hMd2
          (by rw [hlen2]; exact Nat.mod_lt _ hn) hdk2 hem2 hinv2
      refine ⟨a2, ?_, ?_, hdk2f, hreach2, ?_, ?_⟩
      · simp only [repairWalk_succ, hck, hpr]
        exact hwalk
      · rw [hlen, hlen2]
      · intro k2 v2
        exact (hpair2 k2 v2).trans (hpair k2 v2)
      · rw [hocc2, hoccstep]

/-! ### The packaged deletion-repair lemma -/

theorem idx_eq_getElem {α : Type} (a : Arr α) (i : Nat) (h : i < a.length) :
    idx a i = a[i] := by
  simp [idx, List.getD_eq_getElem?_getD, List.getElem?_eq_getElem h]

theorem occupiedCount_pos_of_idx {α : Type} {a : Arr α} {p : Nat}
    {e : String × α} (h : idx a p = some e) : 1 ≤ occupiedCount a := by
  by_contra h0
  have hz : occupiedCount a = 0 := by omega
  have hall := List.countP_eq_zero.1 hz
  have hp := idx_some_lt h
  have hmem : idx a p ∈ a := by
    rw [idx_eq_getElem a p hp]
    exact List.getElem_mem hp
  have := hall (idx a p) hmem
  rw [h] at this
  simp at this

theorem no_pairs_of_occ_zero {α : Type} {a : Arr α}
    (h : occupiedCount a = 0) : ∀ k v, ¬ HasPair a k v := by
  rintro k v ⟨i, hi⟩
  have := occupiedCount_pos_of_idx hi
  omega

/-- Vacating the slot of an entry and running the repair walk removes
exactly that key, keeps the invariant, and keeps all other pairs. -/
theorem delete_repair {α : Type} {a : Arr α} {P : Nat} {k : String} {v : α}
    (wf : ArrWF a) (hP : idx a P = some (k, v)) :
    ∃ a2, repairWalk (a.set P none) ((P + 1) % (a.set P none).length)
        (walkFuel (a.set P none).length) = some a2 ∧
      a2.length = a.length ∧ ArrWF a2 ∧
      (∀ k2 v2, HasPair a2 k2 v2 ↔ (k2 ≠ k ∧ HasPair a k2 v2)) ∧
      occupiedCount a2 + 1 = occupiedCount a := by
  have hPl : P < a.length := idx_some_lt hP
  have hn : 0 < a.length := by omega
  have hl : (a.set P none).length = a.length := length_set a P none
  have ha0P : idx (a.set P none) P = none := idx_set_eq a P none hPl
  have hem0 : EmptyExists (a.set P none) := ⟨P, by rw [hl]; exact hPl, ha0P⟩
  have hdk0 : distinctKeys (a.set P none) := distinct_set_none wf.distinct hPl
  have hinv0 : ∀ p k1 v1, idx (a.set P none) p = some (k1, v1) →
      ReachEntry (a.set P none) k1 p ∨
        InRun (a.set P none) ((P + 1) % a.length) p :=
    entries_clear hPl hP
      (fun p k1 v1 h => Or.inl (wf.reach p k1 v1 h))
  -- the measure is below the fuel bound
  have hphi : phi (a.set P none) ≤ a.length * a.length := by
    have := phi_le (a.set P none)
    rwa [hl] at this
  have hdist : distE (a.set P none) ((P + 1) % a.length) < a.length := by
    have := distE_lt (a := a.set P none) (c := (P + 1) % a.length)
      (by rw [hl]; exact Nat.mod_lt _ hn) hem0
    rwa [hl] at this
  have hM : phi (a.set P none) * (a.set P none).length
      + distE (a.set P none) ((P + 1) % a.length)
      < walkFuel (a.set P none).length := by
    rw [hl, walkFuel]
    have hm : phi (a.set P none) * a.length
        ≤ a.length * a.length * a.length :=
      Nat.mul_le_mul_right a.length hphi
    omega
  have hstart : (P + 1) % (a.set P none).length = (P + 1) % a.length := by
    rw [hl]
  rw [hstart]
  obtain ⟨a2, hwalk, hlen, hdk2, hreach2, hpair2, hocc2⟩ :=
    walk_main (walkFuel (a.set P none).length) (a.set P none)
      ((P + 1) % a.length) (by rw [hl] at hM ⊢; exact hM)
      (by rw [hl]; exact Nat.mod_lt _ hn) hdk0 hem0 hinv0
  refine ⟨a2, hwalk, by rw [hlen, hl], ⟨hdk2, hreach2⟩, ?_, ?_⟩
  · intro k2 v2
    rw [hpair2 k2 v2]
    constructor
    · rintro ⟨i, hi⟩
      rcases idx_set_some_elim hPl hi with ⟨_, hx⟩ | ⟨hiP, hai⟩
      · exact absurd hx (by simp)
      · refine ⟨?_, i, hai⟩
        intro hk2
        rw [hk2] at hai
        exact hiP (wf.distinct i P k v2 k v hai hP rfl)
    · rintro ⟨hk2, i, hai⟩
      have hiP : i ≠ P := by
        intro he
        rw [he, hP] at hai
        injection hai with h2
        injection h2 with h3 _
        exact hk2 h3.symm
      exact ⟨i, by
        rw [idx_set_ne a P i none (fun he => hiP he.symm)]
        exact hai⟩
  · have h1 := occupiedCount_set a P none hPl
    rw [hP] at h1
    simp only [Option.isSome_some, Option.isSome_none, if_true,
      Bool.false_eq_true, if_false] at h1
    omega

/-! ### The rebuild fold used by both resize procedures -/

/-- Keys of two occupied slots differ (the relation used to state that a
slot list has pairwise-distinct keys). -/
def SlotKeysNe {α : Type} (s1 s2 : Slot α) : Prop :=
  ∀ k1 v1 k2 v2, s1 = some (k1, v1) → s2 = some (k2, v2) → k1 ≠ k2

theorem pairwise_of_distinct {α : Type} {a : Arr α}
    (hdk : distinctKeys a) : List.Pairwise SlotKeysNe a := by
  rw [List.pairwise_iff_getElem]
  intro i j hi hj hij
  intro k1 v1 k2 v2 h1 h2 hk
  have hi1 : idx a i = some (k1, v1) := by rw [idx_eq_getElem a i hi, h1]
  have hj1 : idx a j = some (k2, v2) := by rw [idx_eq_getElem a j hj, h2]
  have := hdk i j k1 v1 k2 v2 hi1 hj1 hk
  omega

theorem mem_iff_hasPair {α : Type} (a : Arr α) (k : String) (v : α) :
    some (k, v) ∈ a ↔ HasPair a k v := by
  rw [List.mem_iff_getElem]
  constructor
  · rintro ⟨i, hi, he⟩
    exact ⟨i, by rw [idx_eq_getElem a i hi, he]⟩
  · rintro ⟨i, hi⟩
    have hlt := idx_some_lt hi
    exact ⟨i, hlt, by rw [← idx_eq_getElem a i hlt, hi]⟩

/-- The rebuild fold: starting from a well-formed accumulator that
contains none of the keys of the remaining slots, a successful fold
produces a well-formed array holding exactly the old pairs plus the
accumulator's pairs, with the occupancy counts added. -/
theorem rebuildFold_ok {α : Type} :
    ∀ (old : List (Slot α)) (acc : Arr α) (res : Arr α),
      ArrWF acc →
      List.Pairwise SlotKeysNe old →
      (∀ k v, some (k, v) ∈ old → ∀ p w, idx acc p ≠ some (k, w)) →
      rebuildFold acc old = (.ok (), res) →
      ArrWF res ∧ res.length = acc.length ∧
        (∀ k v, HasPair res k v ↔ HasPair acc k v ∨ some (k, v) ∈ old) ∧
        occupiedCount res
          = occupiedCount acc + old.countP (fun sl => sl.isSome) := by
  intro old
  induction old with
  | nil =>
    intro acc res hwf _ _ hrun
    rw [rebuildFold] at hrun
    injection hrun with h1 h2
    subst h2
    refine ⟨hwf, rfl, fun k v => by simp, by simp⟩
  | cons sl rest ih =>
    intro acc res hwf hpw habs hrun
    obtain ⟨hhead, hrest⟩ := List.pairwise_cons.1 hpw
    match sl with
    | none =>
      rw [rebuildFold] at hrun
      obtain ⟨h1, h2, h3, h4⟩ := ih acc res hwf hrest
        (fun k v hm => habs k v (List.mem_cons_of_mem _ hm)) hrun
      refine ⟨h1, h2, ?_, ?_⟩
      · intro k v
        rw [h3 k v]
        simp
      · rw [h4, List.countP_cons]
        simp
    | some (k, v) =>
      rw [rebuildFold] at hrun
      have habsk : ∀ p w, idx acc p ≠ some (k, w) :=
        habs k v (List.mem_cons_self _ _)
      have hnf : ∀ t, probe acc k ≠ .found t := by
        intro t hf
        obtain ⟨_, _, ⟨w, hw⟩, _⟩ := probe_found_spec hf
        exact habsk t w hw
      match hpr : probe acc k with
      | .found t => exact absurd hpr (hnf t)
      | .exhausted => rw [hpr] at hrun; exact absurd hrun (by simp)
      | .empty t =>
        rw [hpr] at hrun
        obtain ⟨hn, htl, hte, _, _, _, _⟩ := probe_empty_spec hpr
        have hwf1 : ArrWF (acc.set t (some (k, v))) := wf_set_insert hwf hpr v
        have habs1 : ∀ k2 v2, some (k2, v2) ∈ rest →
            ∀ p w, idx (acc.set t (some (k, v))) p ≠ some (k2, w) := by
          intro k2 v2 hm p w hpw2
          rcases idx_set_some_elim htl hpw2 with ⟨_, hx⟩ | ⟨_, hap⟩
          · have hx2 : k = k2 ∧ v = w := by simpa using hx
            exact hhead (some (k2, v2)) hm k v k2 v2 rfl rfl hx2.1
          · exact habs k2 v2 (List.mem_cons_of_mem _ hm) p w hap
        obtain ⟨h1, h2, h3, h4⟩ :=
          ih (acc.set t (some (k, v))) res hwf1 hrest habs1 hrun
        refine ⟨h1, by rw [h2, length_set], ?_, ?_⟩
        · intro k2 v2
          rw [h3 k2 v2]
          constructor
          · rintro (hor | hmem)
            · obtain ⟨i, hi⟩ := hor
              rcases idx_set_some_elim htl hi with ⟨_, hx⟩ | ⟨_, hap⟩
              · right
                rw [← hx]
                exact List.mem_cons_self _ _
              · exact Or.inl ⟨i, hap⟩
            · right; exact List.mem_cons_of_mem _ hmem
          · rintro (hacc | hmem)
            · obtain ⟨i, hi⟩ := hacc
              have hit : i ≠ t := by
                intro he
                rw [he, hte] at hi
                exact Option.noConfusion hi
              exact Or.inl ⟨i, by
                rw [idx_set_ne acc t i _ (fun he => hit he.symm)]
                exact hi⟩
            · rcases List.mem_cons.1 hmem with heq | hrest2
              · exact Or.inl ⟨t, by
                  rw [idx_set_eq acc t _ htl, ← heq]⟩
              · exact Or.inr hrest2
        · rw [h4, List.countP_cons]
          have hocc1 := occupiedCount_set acc t (some (k, v)) htl
          rw [hte] at hocc1
          simp only [Option.isSome_some, Option.isSome_none, if_true,
            Bool.false_eq_true, if_false] at hocc1
          simp only [Option.isSome_some, if_true]
          omega

/-! ### Well-formedness and refinement of the nested single-key table -/

/-- Invariant of a (spec-modelled) nested table: the probing invariant of
its array plus a correct occupancy count. -/
structure LptWF {α : Type} (t : LPT α) : Prop where
  wf : ArrWF t.array
  cnt : t.count = occupiedCount t.array

theorem idx_replicate {α : Type} (n i : Nat) :
    idx (List.replicate n (none : Slot α)) i = none := by
  by_cases h : i < n <;>
    simp [idx, List.getD_eq_getElem?_getD, List.getElem?_replicate, h]

theorem wf_replicate {α : Type} (n : Nat) :
    ArrWF (List.replicate n (none : Slot α)) := by
  constructor
  · intro i j ki vi kj vj hi
    rw [idx_replicate] at hi
    exact absurd hi (by simp)
  · intro p k v h
    rw [idx_replicate] at h
    exact absurd h (by simp)

theorem occ_replicate {α : Type} (n : Nat) :
    occupiedCount (List.replicate n (none : Slot α)) = 0 := by
  apply List.countP_eq_zero.2
  intro x hx
  rw [List.eq_of_mem_replicate hx]
  simp

theorem newLPT_wf {α : Type} (sizes : List Nat) : LptWF (newLPT α sizes) :=
  ⟨wf_replicate _, by simp [newLPT, occ_replicate]⟩

theorem no_pairs_replicate {α : Type} (n : Nat) (k : String) (v : α) :
    ¬ HasPair (List.replicate n (none : Slot α)) k v := by
  rintro ⟨i, hi⟩
  rw [idx_replicate] at hi
  exact Option.noConfusion hi

/-- Pair-level description of overwriting an entry (same key). -/
theorem hasPair_set_overwrite {α : Type} {a : Arr α} {p : Nat} {k : String}
    {v0 : α} (hdk : distinctKeys a) (hidx : idx a p = some (k, v0))
    (v : α) (k2 : String) (v2 : α) :
    HasPair (a.set p (some (k, v))) k2 v2 ↔
      ((k2 = k ∧ v2 = v) ∨ (k2 ≠ k ∧ HasPair a k2 v2)) := by
  constructor
  · rintro ⟨i, hi⟩
    rcases idx_set_some_elim (idx_some_lt hidx) hi with ⟨_, hx⟩ | ⟨hip, hai⟩
    · have hx2 : k = k2 ∧ v = v2 := by simpa using hx
      exact Or.inl ⟨hx2.1.symm, hx2.2.symm⟩
    · right
      refine ⟨?_, i, hai⟩
      intro hk2
      rw [hk2] at hai
      exact hip (hdk i p k v2 k v0 hai hidx rfl)
  · rintro (⟨hk2, hv2⟩ | ⟨hne, i, hai⟩)
    · exact ⟨p, by rw [idx_set_eq _ _ _ (idx_some_lt hidx), hk2, hv2]⟩
    · have hip : i ≠ p := by
        intro he
        rw [he, hidx] at hai
        have : k = k2 ∧ v0 = v2 := by simpa using hai
        exact hne this.1.symm
      exact ⟨i, by
        rw [idx_set_ne _ _ _ _ (fun he => hip he.symm)]
        exact hai⟩

/-- Pair-level description of inserting a fresh key at an empty slot. -/
theorem hasPair_set_fresh {α : Type} {a : Arr α} {q : Nat} {k : String}
    (hq : idx a q = none) (hql : q < a.length)
    (habs : ∀ p w, idx a p ≠ some (k, w)) (v : α) (k2 : String) (v2 : α) :
    HasPair (a.set q (some (k, v))) k2 v2 ↔
      ((k2 = k ∧ v2 = v) ∨ (k2 ≠ k ∧ HasPair a k2 v2)) := by
  constructor
  · rintro ⟨i, hi⟩
    rcases idx_set_some_elim hql hi with ⟨_, hx⟩ | ⟨_, hai⟩
    · have hx2 : k = k2 ∧ v = v2 := by simpa using hx
      exact Or.inl ⟨hx2.1.symm, hx2.2.symm⟩
    · right
      refine ⟨?_, i, hai⟩
      intro hk2
      rw [hk2] at hai
      exact habs i v2 hai
  · rintro (⟨hk2, hv2⟩ | ⟨_, i, hai⟩)
    · exact ⟨q, by rw [idx_set_eq _ _ _ hql, hk2, hv2]⟩
    · have hiq : i ≠ q := by
        intro he
        rw [he, hq] at hai
        exact Option.noConfusion hai
      exact ⟨i, by
        rw [idx_set_ne _ _ _ _ (fun he => hiq he.symm)]
        exact hai⟩

theorem lptRehash_ok {α : Type} {t t' : LPT α} (h : LptWF t)
    (hr : lptRehash t = .ok t') :
    LptWF t' ∧ t'.count = t.count ∧
      (∀ k v, HasPair t'.array k v ↔ HasPair t.array k v) := by
  rw [lptRehash] at hr
  by_cases hsz : t.sizeIndex + 1 ≥ t.sizes.length
  · rw [if_pos hsz] at hr
    injection hr with h2
    subst h2
    exact ⟨h, rfl, fun k v => Iff.rfl⟩
  · rw [if_neg hsz] at hr
    match hrun : rebuildFold
        (List.replicate (t.sizes.getD (t.sizeIndex + 1) 0) none) t.array with
    | (.error e, _) =>
      rw [hrun] at hr
      exact absurd hr (by simp)
    | (.ok (), a2) =>
      rw [hrun] at hr
      injection hr with h2
      subst h2
      obtain ⟨hwf2, _, hpairs2, hocc2⟩ := rebuildFold_ok t.array _ a2
        (wf_replicate _) (pairwise_of_distinct h.wf.distinct)
        (by intro k v _ p w; rw [idx_replicate]; simp) hrun
      refine ⟨⟨hwf2, ?_⟩, rfl, ?_⟩
      · rw [hocc2, occ_replicate]
        simp only [Nat.zero_add]
        exact h.cnt
      · intro k v
        rw [hpairs2 k v, mem_iff_hasPair]
        constructor
        · rintro (hrep | hm)
          · exact absurd hrep (no_pairs_replicate _ k v)
          · exact hm
        · exact Or.inr

theorem lptSet_ok {α : Type} {t t' : LPT α} {k : String} {v : α}
    (h : LptWF t) (hs : lptSet t k v = .ok t') :
    LptWF t' ∧
      (∀ k2 v2, HasPair t'.array k2 v2 ↔
        ((k2 = k ∧ v2 = v) ∨ (k2 ≠ k ∧ HasPair t.array k2 v2))) := by
  rw [lptSet] at hs
  match hpr : probe t.array k with
  | .exhausted =>
    rw [lptProbePos, hpr] at hs
    exact absurd hs (by simp)
  | .found p =>
    rw [lptProbePos, hpr] at hs
    obtain ⟨hn, hpl, ⟨v0, hidx⟩, _⟩ := probe_found_spec hpr
    simp only at hs
    rw [hidx] at hs
    simp only [Option.isNone_some, if_neg, Bool.false_eq_true, if_false] at hs
    have hocc := occupiedCount_set t.array p (some (k, v)) hpl
    rw [hidx] at hocc
    simp only [Option.isSome_some, if_true] at hocc
    have h1cnt : t.count = occupiedCount (t.array.set p (some (k, v))) := by
      rw [h.cnt]
      omega
    have h1 : LptWF { t with array := t.array.set p (some (k, v)), count := t.count } :=
      ⟨wf_set_overwrite h.wf hidx v, h1cnt⟩
    have hpairs1 : ∀ k2 v2,
        HasPair (t.array.set p (some (k, v))) k2 v2 ↔
          ((k2 = k ∧ v2 = v) ∨ (k2 ≠ k ∧ HasPair t.array k2 v2)) :=
      hasPair_set_overwrite h.wf.distinct hidx v
    by_cases hgrow : 2 * t.count > (t.array.set p (some (k, v))).length
    · rw [if_pos hgrow] at hs
      obtain ⟨hw2, hc2, hp2⟩ := lptRehash_ok h1 hs
      exact ⟨hw2, fun k2 v2 => (hp2 k2 v2).trans (hpairs1 k2 v2)⟩
    · rw [if_neg hgrow] at hs
      injection hs with h2
      subst h2
      exact ⟨h1, hpairs1⟩
  | .empty p =>
    rw [lptProbePos, hpr] at hs
    obtain ⟨hn, hpl, hpe, _⟩ := probe_empty_spec hpr
    simp only [if_true] at hs
    rw [hpe] at hs
    simp only [Option.isNone_none, if_pos, if_true] at hs
    have habs := absent_of_probe_empty h.wf hpr
    have hocc := occupiedCount_set t.array p (some (k, v)) hpl
    rw [hpe] at hocc
    simp only [Option.isSome_some, Option.isSome_none, if_true,
      Bool.false_eq_true, if_false] at hocc
    have h1cnt : t.count + 1 = occupiedCount (t.array.set p (some (k, v))) := by
      rw [h.cnt]
      omega
    have h1 : LptWF { t with array := t.array.set p (some (k, v)), count := t.count + 1 } :=
      ⟨wf_set_insert h.wf hpr v, h1cnt⟩
    have hpairs1 : ∀ k2 v2,
        HasPair (t.array.set p (some (k, v))) k2 v2 ↔
          ((k2 = k ∧ v2 = v) ∨ (k2 ≠ k ∧ HasPair t.array k2 v2)) :=
      hasPair_set_fresh hpe hpl habs v
    by_cases hgrow : 2 * (t.count + 1) > (t.array.set p (some (k, v))).length
    · rw [if_pos hgrow] at hs
      obtain ⟨hw2, hc2, hp2⟩ := lptRehash_ok h1 hs
      exact ⟨hw2, fun k2 v2 => (hp2 k2 v2).trans (hpairs1 k2 v2)⟩
    · rw [if_neg hgrow] at hs
      injection hs with h2
      subst h2
      exact ⟨h1, hpairs1⟩

theorem lptDelete_present {α : Type} {t : LPT α} {k : String} {v : α}
    (h : LptWF t) (hp : HasPair t.array k v) :
    ∃ t', lptDelete t k = .ok t' ∧ LptWF t' ∧
      t'.count + 1 = t.count ∧
      (∀ k2 v2, HasPair t'.array k2 v2 ↔ (k2 ≠ k ∧ HasPair t.array k2 v2)) := by
  obtain ⟨i, hi⟩ := hp
  have hfound : probe t.array k = .found i := probe_found_of_wf h.wf hi
  obtain ⟨a2, hwalk, hlen, hwf2, hpairs2, hocc2⟩ := delete_repair h.wf hi
  refine ⟨{ t with array := a2, count := t.count - 1 }, ?_, ?_, ?_, ?_⟩
  · rw [lptDelete, lptProbePos, hfound]
    simp only []
    rw [hwalk]
  · refine ⟨hwf2, ?_⟩
    simp only []
    rw [h.cnt]
    omega
  · simp only []
    have hcpos : 1 ≤ t.count := by
      rw [h.cnt]
      exact occupiedCount_pos_of_idx hi
    omega
  · exact hpairs2

theorem lptDelete_absent {α : Type} {t : LPT α} {k : String}
    (hab : ∀ v, ¬ HasPair t.array k v) :
    lptDelete t k = .error .keyError := by
  have hnf : ∀ p, probe t.array k ≠ .found p := by
    intro p hf
    obtain ⟨_, _, ⟨w, hw⟩, _⟩ := probe_found_spec hf
    exact hab w ⟨p, hw⟩
  rw [lptDelete, lptProbePos]
  match hpr : probe t.array k with
  | .found p => exact absurd hpr (hnf p)
  | .empty p => rfl
  | .exhausted => rfl

/-! ### The two-level table: probe characterisation, invariant, and the
abstraction relation -/

theorem lptProbePos_found {α : Type} {a : Arr α} {k : String} {p : Nat}
    (ins : Bool) (h : probe a k = .found p) : lptProbePos a k ins = .ok p := by
  rw [lptProbePos, h]

theorem lptProbePos_empty_true {α : Type} {a : Arr α} {k : String} {p : Nat}
    (h : probe a k = .empty p) : lptProbePos a k true = .ok p := by
  rw [lptProbePos, h]
  rfl

theorem lptProbePos_empty_false {α : Type} {a : Arr α} {k : String} {p : Nat}
    (h : probe a k = .empty p) : lptProbePos a k false = .error .keyError := by
  rw [lptProbePos, h]
  rfl

theorem lptProbePos_exhausted {α : Type} {a : Arr α} {k : String}
    (ins : Bool) (h : probe a k = .exhausted) :
    lptProbePos a k ins
      = (if ins then .error .fullError else .error .keyError) := by
  rw [lptProbePos, h]

theorem linearProbeAux_succ {α : Type} (s : DKT α) (k1 : String)
    (k2? : Option String) (isInsert : Bool) (pos fuel : Nat) :
    linearProbeAux s k1 k2? isInsert pos (fuel + 1) =
      match idx s.array pos with
      | none =>
        if isInsert then
          match k2? with
          | none => (.ok (pos, none), s)
          | some k2 =>
            let ht := newLPT α s.internalSizes
            let s' := { s with array := s.array.set pos (some (k1, ht)) }
            match lptProbePos ht.array k2 true with
            | .ok p2 => (.ok (pos, some p2), s')
            | .error e => (.error e, s')
        else (.error .keyError, s)
      | some (k, ht) =>
        if k = k1 then
          match k2? with
          | none => (.ok (pos, none), s)
          | some k2 =>
            match lptProbePos ht.array k2 isInsert with
            | .ok p2 => (.ok (pos, some p2), s)
            | .error e => (.error e, s)
        else linearProbeAux s k1 k2? isInsert ((pos + 1) % s.array.length) fuel
    := rfl

/-- Outcome of `DoubleKeyTable._linear_probe` as a function of the pure
top-level scan result (proof-layer device used to reason about
`linearProbeAux`; not itself part of the source). -/
def probeInterp {α : Type} (s : DKT α) (k1 : String) (k2? : Option String)
    (isInsert : Bool) : ProbeOut → (Except PyErr (Nat × Option Nat)) × DKT α
  | .exhausted =>
    ((if isInsert then .error .fullError else .error .keyError), s)
  | .empty pos =>
    if isInsert then
      match k2? with
      | none => (.ok (pos, none), s)
      | some k2 =>
        let ht := newLPT α s.internalSizes
        let s' := { s with array := s.array.set pos (some (k1, ht)) }
        match lptProbePos ht.array k2 true with
        | .ok p2 => (.ok (pos, some p2), s')
        | .error e => (.error e, s')
    else (.error .keyError, s)
  | .found pos =>
    match idx s.array pos with
    | some (_, ht) =>
      match k2? with
      | none => (.ok (pos, none), s)
      | some k2 =>
        match lptProbePos ht.array k2 isInsert with
        | .ok p2 => (.ok (pos, some p2), s)
        | .error e => (.error e, s)
    | none => (.ok (pos, none), s)

theorem linearProbeAux_eq_interp {α : Type} (s : DKT α) (k1 : String)
    (k2? : Option String) (ins : Bool) :
    ∀ (fuel pos : Nat),
      linearProbeAux s k1 k2? ins pos fuel
        = probeInterp s k1 k2? ins (probeAux s.array k1 pos fuel) := by
  intro fuel
  induction fuel with
  | zero => intro pos; rfl
  | succ fuel ih =>
    intro pos
    rw [linearProbeAux_succ, probeAux_succ]
    match hidx : idx s.array pos with
    | none => rfl
    | some (k, ht) =>
      simp only []
      by_cases hk : k = k1
      · rw [if_pos hk, if_pos hk]
        simp only [probeInterp, hidx]
      · rw [if_neg hk, if_neg hk]
        exact ih ((pos + 1) % s.array.length)

theorem linearProbe_eq_interp {α : Type} (s : DKT α) (k1 : String)
    (k2? : Option String) (ins : Bool) :
    linearProbe s k1 k2? ins = probeInterp s k1 k2? ins (probe s.array k1) :=
  linearProbeAux_eq_interp s k1 k2? ins s.array.length
    (polyHash s.array.length k1)

/-- The invariant of a whole two-level table: top-level probing invariant,
every nested table well-formed, and no nested table empty (the claim-C9
invariant). -/
structure DKTWF {α : Type} (s : DKT α) : Prop where
  top : ArrWF s.array
  nested : ∀ i k lpt, idx s.array i = some (k, lpt) →
    LptWF lpt ∧ 1 ≤ lpt.count

/-- Abstraction relation: the pair `(k1, k2)` maps to `v` in the
two-level table. -/
def absR {α : Type} (s : DKT α) (k1 k2 : String) (v : α) : Prop :=
  ∃ lpt, HasPair s.array k1 lpt ∧ HasPair lpt.array k2 v

theorem absR_of_top {α : Type} {s : DKT α} {i : Nat} {k1 : String}
    {lpt : LPT α} (wf : ArrWF s.array)
    (hi : idx s.array i = some (k1, lpt)) (b : String) (w : α) :
    absR s k1 b w ↔ HasPair lpt.array b w := by
  constructor
  · rintro ⟨lpt2, ⟨i2, hi2⟩, hp⟩
    have hii : i2 = i := wf.distinct i2 i k1 lpt2 k1 lpt hi2 hi rfl
    rw [hii, hi] at hi2
    have h3 : k1 = k1 ∧ lpt = lpt2 := by simpa using hi2
    rw [h3.2]
    exact hp
  · intro hp
    exact ⟨lpt, ⟨i, hi⟩, hp⟩

theorem absR_absent_top {α : Type} {s : DKT α} {k1 : String}
    (hab : ∀ i lpt, idx s.array i ≠ some (k1, lpt)) (b : String) (w : α) :
    ¬ absR s k1 b w := by
  rintro ⟨lpt, ⟨i, hi⟩, _⟩
  exact hab i lpt hi

/-- A lookup with a present pair returns its value and does not change
the state. -/
theorem getItemSt_present {α : Type} {s : DKT α} {k1 k2 : String} {v : α}
    (wf : DKTWF s) (h : absR s k1 k2 v) :
    getItemSt s k1 k2 = (.ok v, s) := by
  obtain ⟨lpt, ⟨i, hi⟩, ⟨j, hj⟩⟩ := h
  have htop : probe s.array k1 = .found i := probe_found_of_wf wf.top hi
  have hlw : LptWF lpt := (wf.nested i k1 lpt hi).1
  have hnested : probe lpt.array k2 = .found j := probe_found_of_wf hlw.wf hj
  rw [getItemSt, linearProbe_eq_interp, htop]
  simp only [probeInterp, hi, lptProbePos_found false hnested, hj]

/-- A lookup with an absent pair raises `KeyError` and does not change
the state. -/
theorem getItemSt_absent {α : Type} {s : DKT α} {k1 k2 : String}
    (wf : DKTWF s) (h : ∀ v, ¬ absR s k1 k2 v) :
    getItemSt s k1 k2 = (.error .keyError, s) := by
  rw [getItemSt, linearProbe_eq_interp]
  by_cases htop : ∃ i lpt, idx s.array i = some (k1, lpt)
  · obtain ⟨i, lpt, hi⟩ := htop
    have hfound : probe s.array k1 = .found i := probe_found_of_wf wf.top hi
    have hlw : LptWF lpt := (wf.nested i k1 lpt hi).1
    have hnab : ∀ j w, idx lpt.array j ≠ some (k2, w) := by
      intro j w hj
      exact h w ⟨lpt, ⟨i, hi⟩, ⟨j, hj⟩⟩
    have hnf : ∀ j, probe lpt.array k2 ≠ .found j := by
      intro j hf
      obtain ⟨_, _, ⟨w, hw⟩, _⟩ := probe_found_spec hf
      exact hnab j w hw
    rw [hfound]
    simp only [probeInterp, hi]
    match hpr : probe lpt.array k2 with
    | .found j => exact absurd hpr (hnf j)
    | .empty j => simp only [lptProbePos_empty_false hpr]
    | .exhausted => simp only [lptProbePos_exhausted false hpr]; rfl
  · have hnf : ∀ i, probe s.array k1 ≠ .found i := by
      intro i hf
      obtain ⟨_, _, ⟨lpt, hw⟩, _⟩ := probe_found_spec hf
      exact htop ⟨i, lpt, hw⟩
    match hpr : probe s.array k1 with
    | .found i => exact absurd hpr (hnf i)
    | .empty i => rfl
    | .exhausted => rfl

/-- A lookup never mutates the table, whatever its outcome. -/
theorem linearProbe_false_state {α : Type} (s : DKT α) (k1 : String)
    (k2? : Option String) :
    ∀ r st, linearProbe s k1 k2? false = (r, st) → st = s := by
  intro r st hlp
  rw [linearProbe_eq_interp] at hlp
  cases hpr : probe s.array k1 with
  | exhausted =>
    rw [hpr] at hlp
    injection hlp with h1 h2
    exact h2.symm
  | empty i =>
    rw [hpr] at hlp
    simp only [probeInterp, Bool.false_eq_true, if_false] at hlp
    injection hlp with h1 h2
    exact h2.symm
  | found i =>
    rw [hpr] at hlp
    simp only [probeInterp] at hlp
    cases hidx : idx s.array i with
    | none =>
      rw [hidx] at hlp
      simp only [] at hlp
      injection hlp with h1 h2
      exact h2.symm
    | some e =>
      match e with
      | (k, ht) =>
        rw [hidx] at hlp
        simp only [] at hlp
        cases hk2 : k2? with
        | none =>
          rw [hk2] at hlp
          injection hlp with h1 h2
          exact h2.symm
        | some k2 =>
          rw [hk2] at hlp
          simp only [] at hlp
          cases hpp : lptProbePos ht.array k2 false with
          | ok p2 =>
            rw [hpp] at hlp
            injection hlp with h1 h2
            exact h2.symm
          | error e2 =>
            rw [hpp] at hlp
            injection hlp with h1 h2
            exact h2.symm

theorem getItemSt_state {α : Type} (s : DKT α) (k1 k2 : String) :
    (getItemSt s k1 k2).2 = s := by
  rw [getItemSt]
  cases hlp : linearProbe s k1 (some k2) false with
  | mk r st =>
    have hsteq : st = s := linearProbe_false_state s k1 (some k2) r st hlp
    rw [hsteq]
    cases r with
    | error e => rfl
    | ok pp =>
      match pp with
      | (p1, p2?) =>
        cases p2? with
        | none => rfl
        | some p2 =>
          simp only []
          cases idx s.array p1 with
          | none => rfl
          | some e2 =>
            match e2 with
            | (k, ht) =>
              simp only []
              cases idx ht.array p2 with
              | none => rfl
              | some e3 =>
                match e3 with
                | (kk, vv) => rfl

/-- A rehash that returns normally preserves the top-level invariant and
the exact set of `(first key, nested table)` pairs, and the nested
schedule. -/
theorem rehash_ok {α : Type} {s s' : DKT α} (wf : ArrWF s.array)
    (hr : rehash s = (.ok (), s')) :
    ArrWF s'.array ∧
      (∀ k lpt, HasPair s'.array k lpt ↔ HasPair s.array k lpt) ∧
      s'.internalSizes = s.internalSizes := by
  rw [rehash] at hr
  by_cases hsz : s.sizeIndex + 1 ≥ s.sizes.length
  · rw [if_pos hsz] at hr
    injection hr with h1 h2
    subst h2
    exact ⟨wf, fun k lpt => Iff.rfl, rfl⟩
  · rw [if_neg hsz] at hr
    match hrun : rebuildFold
        (List.replicate (s.sizes.getD (s.sizeIndex + 1) 0) none) s.array with
    | (.error e, a2) =>
      rw [hrun] at hr
      injection hr with h1 h2
      exact absurd h1 (by simp)
    | (.ok (), a2) =>
      rw [hrun] at hr
      injection hr with h1 h2
      subst h2
      obtain ⟨hwf2, _, hpairs2, _⟩ := rebuildFold_ok s.array _ a2
        (wf_replicate _) (pairwise_of_distinct wf.distinct)
        (by intro k v _ p w; rw [idx_replicate]; simp) hrun
      refine ⟨hwf2, ?_, rfl⟩
      intro k lpt
      rw [hpairs2 k lpt, mem_iff_hasPair]
      constructor
      · rintro (hrep | hm)
        · exact absurd hrep (no_pairs_replicate _ k lpt)
        · exact hm
      · exact Or.inr

theorem lptWF_count_pos {α : Type} {t : LPT α} {k : String} {v : α}
    (h : LptWF t) (hp : HasPair t.array k v) : 1 ≤ t.count := by
  obtain ⟨i, hi⟩ := hp
  rw [h.cnt]
  exact occupiedCount_pos_of_idx hi

theorem absR_congr {α : Type} {s s2 : DKT α}
    (hp : ∀ k lpt, HasPair s2.array k lpt ↔ HasPair s.array k lpt)
    (a b : String) (w : α) : absR s2 a b w ↔ absR s a b w := by
  constructor
  · rintro ⟨lpt, h1, h2⟩
    exact ⟨lpt, (hp a lpt).1 h1, h2⟩
  · rintro ⟨lpt, h1, h2⟩
    exact ⟨lpt, (hp a lpt).2 h1, h2⟩

/-- Rehash transfer: a successful resize preserves the whole invariant
and the abstraction. -/
theorem dkt_rehash_transfer {α : Type} {s2 s3 : DKT α} (wf : DKTWF s2)
    (h : rehash s2 = (.ok (), s3)) :
    DKTWF s3 ∧ (∀ a b w, absR s3 a b w ↔ absR s2 a b w) := by
  obtain ⟨hw, hp, _⟩ := rehash_ok wf.top h
  refine ⟨⟨hw, ?_⟩, ?_⟩
  · intro i k lpt hi
    obtain ⟨j, hj⟩ := (hp k lpt).1 ⟨i, hi⟩
    exact wf.nested j k lpt hj
  · intro a b w
    exact absR_congr hp a b w

theorem nested_facts_set {α : Type} {a : Arr (LPT α)} {p1 : Nat}
    {k1 : String} {sub' : LPT α} (hp1 : p1 < a.length)
    (wfN : ∀ i k lpt, idx a i = some (k, lpt) → LptWF lpt ∧ 1 ≤ lpt.count)
    (hsub : LptWF sub') (hpos : 1 ≤ sub'.count) :
    ∀ i k lpt, idx (a.set p1 (some (k1, sub'))) i = some (k, lpt) →
      LptWF lpt ∧ 1 ≤ lpt.count := by
  intro i k lpt hi
  rcases idx_set_some_elim hp1 hi with ⟨_, hx⟩ | ⟨_, hai⟩
  · have h3 : k1 = k ∧ sub' = lpt := by simpa using hx
    rw [← h3.2]
    exact ⟨hsub, hpos⟩
  · exact wfN i k lpt hai

/-- Assembling the abstraction update for `set` from the top-level pair
update, the nested pair update, and the link between the old nested
table and the old abstraction. -/
theorem absR_update_glue {α : Type} {s s2 : DKT α} {k1 k2 : String} {v : α}
    {sub sub' : LPT α}
    (htop : ∀ a lpt', HasPair s2.array a lpt' ↔
      ((a = k1 ∧ lpt' = sub') ∨ (a ≠ k1 ∧ HasPair s.array a lpt')))
    (hsub : ∀ b w, HasPair sub'.array b w ↔
      ((b = k2 ∧ w = v) ∨ (b ≠ k2 ∧ HasPair sub.array b w)))
    (hold : ∀ b w, absR s k1 b w ↔ HasPair sub.array b w) :
    ∀ a b w, absR s2 a b w ↔
      ((a = k1 ∧ b = k2 ∧ w = v) ∨
        (¬(a = k1 ∧ b = k2) ∧ absR s a b w)) := by
  intro a b w
  constructor
  · rintro ⟨lpt', hl, hp⟩
    rcases (htop a lpt').1 hl with ⟨ha, hlp⟩ | ⟨ha, hsp⟩
    · subst hlp
      rcases (hsub b w).1 hp with ⟨hb, hw⟩ | ⟨hb, hpold⟩
      · exact Or.inl ⟨ha, hb, hw⟩
      · refine Or.inr ⟨fun hc => hb hc.2, ?_⟩
        rw [ha]
        exact (hold b w).2 hpold
    · exact Or.inr ⟨fun hc => ha hc.1, ⟨lpt', hsp, hp⟩⟩
  · rintro (⟨ha, hb, hw⟩ | ⟨hnc, habs⟩)
    · exact ⟨sub', (htop a sub').2 (Or.inl ⟨ha, rfl⟩),
        (hsub b w).2 (Or.inl ⟨hb, hw⟩)⟩
    · by_cases ha : a = k1
      · subst ha
        have hb : b ≠ k2 := fun hbe => hnc ⟨rfl, hbe⟩
        have hpold : HasPair sub.array b w := (hold b w).1 habs
        exact ⟨sub', (htop a sub').2 (Or.inl ⟨rfl, rfl⟩),
          (hsub b w).2 (Or.inr ⟨hb, hpold⟩)⟩
      · obtain ⟨lpt', hsp, hp⟩ := habs
        exact ⟨lpt', (htop a lpt').2 (Or.inr ⟨ha, hsp⟩), hp⟩

/-- A successful `set` preserves the invariant and updates the
abstraction at exactly the written pair. -/
theorem setItem_ok {α : Type} {s s' : DKT α} {k1 k2 : String} {v : α}
    (wf : DKTWF s) (hs : setItem s k1 k2 v = (.ok (), s')) :
    DKTWF s' ∧ ∀ a b w, absR s' a b w ↔
      ((a = k1 ∧ b = k2 ∧ w = v) ∨
        (¬(a = k1 ∧ b = k2) ∧ absR s a b w)) := by
  rw [setItem, linearProbe_eq_interp] at hs
  match hpr : probe s.array k1 with
  | .exhausted =>
    rw [hpr] at hs
    simp only [probeInterp, if_true] at hs
    exact absurd hs (by simp)
  | .found p1 =>
    rw [hpr] at hs
    obtain ⟨hn, hp1, ⟨sub, hw⟩, _⟩ := probe_found_spec hpr
    simp only [probeInterp, hw] at hs
    obtain ⟨hsubwf, hsubpos⟩ := wf.nested p1 k1 sub hw
    match hpp : lptProbePos sub.array k2 true with
    | .error e =>
      rw [hpp] at hs
      simp only [] at hs
      exact absurd hs (by simp)
    | .ok p2 =>
      rw [hpp] at hs
      simp only [hw] at hs
      match hset : lptSet sub k2 v with
      | .error e =>
        rw [hset] at hs
        simp only [] at hs
        exact absurd hs (by simp)
      | .ok sub' =>
        rw [hset] at hs
        simp only [] at hs
        obtain ⟨hsub'wf, hsub'pairs⟩ := lptSet_ok hsubwf hset
        have hsub'pos : 1 ≤ sub'.count :=
          lptWF_count_pos hsub'wf ((hsub'pairs k2 v).2 (Or.inl ⟨rfl, rfl⟩))
        have hwf2 : DKTWF { s with
            array := s.array.set p1 (some (k1, sub')),
            count := if sub.count = 0 then s.count + 1 else s.count } := by
          refine ⟨wf_set_overwrite wf.top hw sub', ?_⟩
          exact nested_facts_set hp1 wf.nested hsub'wf hsub'pos
        have habsr : ∀ a b w, absR { s with
            array := s.array.set p1 (some (k1, sub')),
            count := if sub.count = 0 then s.count + 1 else s.count } a b w ↔
            ((a = k1 ∧ b = k2 ∧ w = v) ∨
              (¬(a = k1 ∧ b = k2) ∧ absR s a b w)) := by
          refine absR_update_glue ?_ hsub'pairs (absR_of_top wf.top hw)
          intro a lpt'
          exact hasPair_set_overwrite wf.top.distinct hw sub' a lpt'
        by_cases hgrow : 2 * (if sub.count = 0 then s.count + 1 else s.count)
            > ((s.array.set p1 (some (k1, sub'))).length : Int)
        · rw [if_pos hgrow] at hs
          obtain ⟨hwf3, habs3⟩ := dkt_rehash_transfer hwf2 hs
          exact ⟨hwf3, fun a b w => (habs3 a b w).trans (habsr a b w)⟩
        · rw [if_neg hgrow] at hs
          injection hs with h1 h2
          subst h2
          exact ⟨hwf2, habsr⟩
  | .empty p1 =>
    rw [hpr] at hs
    obtain ⟨hn, hp1, hq, _⟩ := probe_empty_spec hpr
    have habs : ∀ p w, idx s.array p ≠ some (k1, w) :=
      absent_of_probe_empty wf.top hpr
    simp only [probeInterp, if_true] at hs
    match hpp : lptProbePos (newLPT α s.internalSizes).array k2 true with
    | .error e =>
      rw [hpp] at hs
      simp only [] at hs
      exact absurd hs (by simp)
    | .ok p2 =>
      rw [hpp] at hs
      have hset_idx : idx (s.array.set p1 (some (k1, newLPT α s.internalSizes))) p1
          = some (k1, newLPT α s.internalSizes) := idx_set_eq s.array p1 _ hp1
      simp only [hset_idx] at hs
      match hset : lptSet (newLPT α s.internalSizes) k2 v with
      | .error e =>
        rw [hset] at hs
        simp only [] at hs
        exact absurd hs (by simp)
      | .ok sub' =>
        rw [hset] at hs
        simp only [List.set_set] at hs
        obtain ⟨hsub'wf, hsub'pairs⟩ := lptSet_ok (newLPT_wf _) hset
        have hsub'pos : 1 ≤ sub'.count :=
          lptWF_count_pos hsub'wf ((hsub'pairs k2 v).2 (Or.inl ⟨rfl, rfl⟩))
        have hwf2 : DKTWF { s with
            array := s.array.set p1 (some (k1, sub')),
            count := if (newLPT α s.internalSizes).count = 0
              then s.count + 1 else s.count } := by
          refine ⟨wf_set_insert wf.top hpr sub', ?_⟩
          exact nested_facts_set hp1 wf.nested hsub'wf hsub'pos
        have habsr : ∀ a b w, absR { s with
            array := s.array.set p1 (some (k1, sub')),
            count := if (newLPT α s.internalSizes).count = 0
              then s.count + 1 else s.count } a b w ↔
            ((a = k1 ∧ b = k2 ∧ w = v) ∨
              (¬(a = k1 ∧ b = k2) ∧ absR s a b w)) := by
          refine absR_update_glue ?_ hsub'pairs ?_
          · intro a lpt'
            exact hasPair_set_fresh hq hp1 habs sub' a lpt'
          · intro b w
            constructor
            · intro h
              exact absurd h (absR_absent_top
                (fun i lpt hi => habs i lpt hi) b w)
            · intro h
              exact absurd h (no_pairs_replicate _ b w)
        by_cases hgrow : 2 * (if (newLPT α s.internalSizes).count = 0
              then s.count + 1 else s.count)
            > ((s.array.set p1 (some (k1, sub'))).length : Int)
        · rw [if_pos hgrow] at hs
          obtain ⟨hwf3, habs3⟩ := dkt_rehash_transfer hwf2 hs
          exact ⟨hwf3, fun a b w => (habs3 a b w).trans (habsr a b w)⟩
        · rw [if_neg hgrow] at hs
          injection hs with h1 h2
          subst h2
          exact ⟨hwf2, habsr⟩

/-- Assembling the abstraction after a delete that vacated the top slot. -/
theorem absR_delete_glue {α : Type} {s sfin : DKT α} {k1 k2 : String}
    {lpt : LPT α}
    (hold : ∀ b w, absR s k1 b w ↔ HasPair lpt.array b w)
    (htopfin : ∀ a lpt', HasPair sfin.array a lpt' ↔
      (a ≠ k1 ∧ HasPair s.array a lpt'))
    (hlptdead : ∀ b w, b ≠ k2 → ¬ HasPair lpt.array b w) :
    ∀ a b w, absR sfin a b w ↔
      (¬(a = k1 ∧ b = k2) ∧ absR s a b w) := by
  intro a b w
  constructor
  · rintro ⟨lpt', hl, hp⟩
    obtain ⟨ha, hsp⟩ := (htopfin a lpt').1 hl
    exact ⟨fun hc => ha hc.1, ⟨lpt', hsp, hp⟩⟩
  · rintro ⟨hnc, habs⟩
    by_cases ha : a = k1
    · rw [ha] at habs
      have hpl := (hold b w).1 habs
      by_cases hb : b = k2
      · exact absurd ⟨ha, hb⟩ hnc
      · exact absurd hpl (hlptdead b w hb)
    · obtain ⟨lpt', hsp, hp⟩ := habs
      exact ⟨lpt', (htopfin a lpt').2 ⟨ha, hsp⟩, hp⟩

/-- Assembling the abstraction after a delete that left the nested table
populated. -/
theorem absR_delupd_glue {α : Type} {s s2 : DKT α} {k1 k2 : String}
    {lpt sub' : LPT α}
    (htop : ∀ a lpt', HasPair s2.array a lpt' ↔
      ((a = k1 ∧ lpt' = sub') ∨ (a ≠ k1 ∧ HasPair s.array a lpt')))
    (hsub : ∀ b w, HasPair sub'.array b w ↔
      (b ≠ k2 ∧ HasPair lpt.array b w))
    (hold : ∀ b w, absR s k1 b w ↔ HasPair lpt.array b w) :
    ∀ a b w, absR s2 a b w ↔
      (¬(a = k1 ∧ b = k2) ∧ absR s a b w) := by
  intro a b w
  constructor
  · rintro ⟨lpt', hl, hp⟩
    rcases (htop a lpt').1 hl with ⟨ha, hlp⟩ | ⟨ha, hsp⟩
    · subst hlp
      obtain ⟨hb, hpl⟩ := (hsub b w).1 hp
      refine ⟨fun hc => hb hc.2, ?_⟩
      rw [ha]
      exact (hold b w).2 hpl
    · exact ⟨fun hc => ha hc.1, ⟨lpt', hsp, hp⟩⟩
  · rintro ⟨hnc, habs⟩
    by_cases ha : a = k1
    · have hb : b ≠ k2 := fun hbe => hnc ⟨ha, hbe⟩
      rw [ha] at habs
      have hpl := (hold b w).1 habs
      exact ⟨sub', (htop a sub').2 (Or.inl ⟨ha, rfl⟩),
        (hsub b w).2 ⟨hb, hpl⟩⟩
    · obtain ⟨lpt', hsp, hp⟩ := habs
      exact ⟨lpt', (htop a lpt').2 (Or.inr ⟨ha, hsp⟩), hp⟩

/-- Deleting an absent pair raises `KeyError` and does not mutate. -/
theorem delItem_absent {α : Type} {s : DKT α} {k1 k2 : String}
    (wf : DKTWF s) (h : ∀ v, ¬ absR s k1 k2 v) :
    delItem s k1 k2 = (.error .keyError, s) := by
  rw [delItem, linearProbe_eq_interp]
  by_cases htop : ∃ i lpt, idx s.array i = some (k1, lpt)
  · obtain ⟨i, lpt, hi⟩ := htop
    have hfound : probe s.array k1 = .found i := probe_found_of_wf wf.top hi
    have hlw : LptWF lpt := (wf.nested i k1 lpt hi).1
    have hnf : ∀ j, probe lpt.array k2 ≠ .found j := by
      intro j hf
      obtain ⟨_, _, ⟨w, hw⟩, _⟩ := probe_found_spec hf
      exact h w ⟨lpt, ⟨i, hi⟩, ⟨j, hw⟩⟩
    rw [hfound]
    simp only [probeInterp, hi]
    match hpr : probe lpt.array k2 with
    | .found j => exact absurd hpr (hnf j)
    | .empty j => simp only [lptProbePos_empty_false hpr]
    | .exhausted => simp only [lptProbePos_exhausted false hpr]; rfl
  · have hnf : ∀ i, probe s.array k1 ≠ .found i := by
      intro i hf
      obtain ⟨_, _, ⟨lpt, hw⟩, _⟩ := probe_found_spec hf
      exact htop ⟨i, lpt, hw⟩
    match hpr : probe s.array k1 with
    | .found i => exact absurd hpr (hnf i)
    | .empty i => rfl
    | .exhausted => rfl

/-- A delete of a present pair succeeds, preserves the invariant, and
removes exactly that pair from the abstraction. -/
theorem delItem_present {α : Type} {s : DKT α} {k1 k2 : String} {v : α}
    (wf : DKTWF s) (hab : absR s k1 k2 v) :
    ∃ s', delItem s k1 k2 = (.ok (), s') ∧ DKTWF s' ∧
      ∀ a b w, absR s' a b w ↔
        (¬(a = k1 ∧ b = k2) ∧ absR s a b w) := by
  obtain ⟨lpt, ⟨i, hi⟩, ⟨j, hj⟩⟩ := hab
  have hp1 : i < s.array.length := idx_some_lt hi
  have htop : probe s.array k1 = .found i := probe_found_of_wf wf.top hi
  have hlw : LptWF lpt := (wf.nested i k1 lpt hi).1
  have hnested : probe lpt.array k2 = .found j := probe_found_of_wf hlw.wf hj
  obtain ⟨sub', hdel, hsub'wf, hcnt, hpairs⟩ :=
    lptDelete_present hlw ⟨j, hj⟩
  have hold := absR_of_top wf.top hi
  rw [delItem, linearProbe_eq_interp, htop]
  simp only [probeInterp, hi, lptProbePos_found false hnested, hdel]
  have htopwf2 : ArrWF (s.array.set i (some (k1, sub'))) :=
    wf_set_overwrite wf.top hi sub'
  have hidx2 : idx (s.array.set i (some (k1, sub'))) i = some (k1, sub') :=
    idx_set_eq s.array i _ hp1
  have htoppairs : ∀ a lpt', HasPair (s.array.set i (some (k1, sub'))) a lpt' ↔
      ((a = k1 ∧ lpt' = sub') ∨ (a ≠ k1 ∧ HasPair s.array a lpt')) :=
    hasPair_set_overwrite wf.top.distinct hi sub'
  by_cases hz : sub'.count = 0
  · rw [if_pos hz]
    -- the nested table is now empty: the slot is vacated and repaired
    have hfound2 : probe (s.array.set i (some (k1, sub'))) k1 = .found i :=
      probe_found_of_wf htopwf2 hidx2
    have hlp2 : linearProbe { s with array := s.array.set i (some (k1, sub')) }
        k1 none false
        = (.ok (i, none), { s with array := s.array.set i (some (k1, sub')) }) := by
      rw [linearProbe_eq_interp]
      show probeInterp _ _ _ _ (probe (s.array.set i (some (k1, sub'))) k1) = _
      rw [hfound2]
      simp only [probeInterp, hidx2]
    simp only [hlp2]
    obtain ⟨a2, hwalk, hlen2, hwf2, hpair2, hocc2⟩ :=
      delete_repair htopwf2 hidx2
    simp only [hwalk]
    refine ⟨{ s with array := a2, count := s.count - 1 }, rfl, ?_, ?_⟩
    · refine ⟨hwf2, ?_⟩
      intro i2 k lpt2 hi2
      obtain ⟨hne, hsp⟩ := (hpair2 k lpt2).1 ⟨i2, hi2⟩
      rcases (htoppairs k lpt2).1 hsp with ⟨hk, _⟩ | ⟨_, ⟨i3, hi3⟩⟩
      · exact absurd hk hne
      · exact wf.nested i3 k lpt2 hi3
    · refine absR_delete_glue hold ?_ ?_
      · intro a lpt'
        rw [hpair2 a lpt']
        constructor
        · rintro ⟨hne, hsp⟩
          rcases (htoppairs a lpt').1 hsp with ⟨hk, _⟩ | ⟨_, hs2⟩
          · exact absurd hk hne
          · exact ⟨hne, hs2⟩
        · rintro ⟨hne, hsp⟩
          exact ⟨hne, (htoppairs a lpt').2 (Or.inr ⟨hne, hsp⟩)⟩
      · intro b w hbne hpl
        have hdead : ∀ k2v v2, ¬ HasPair sub'.array k2v v2 := by
          intro k2v v2 hpp
          have := lptWF_count_pos hsub'wf hpp
          omega
        exact hdead b w ((hpairs b w).2 ⟨hbne, hpl⟩)
  · rw [if_neg hz]
    refine ⟨{ s with array := s.array.set i (some (k1, sub')) }, rfl, ?_, ?_⟩
    · refine ⟨htopwf2, ?_⟩
      exact nested_facts_set hp1 wf.nested hsub'wf (by omega)
    · exact absR_delupd_glue htoppairs hpairs hold

/-- Reachable table states: those produced from a constructor call by any
sequence of successful `set` and `delete` operations. -/
inductive Reachable {α : Type} : DKT α → Prop where
  | init (sizes? internalSizes? : Option (List Nat)) :
      Reachable (mkDKT α sizes? internalSizes?)
  | set {s s' : DKT α} {k1 k2 : String} {v : α} :
      Reachable s → setItem s k1 k2 v = (.ok (), s') → Reachable s'
  | del {s s' : DKT α} {k1 k2 : String} :
      Reachable s → delItem s k1 k2 = (.ok (), s') → Reachable s'

theorem mkDKT_array {α : Type} (so io : Option (List Nat)) :
    (mkDKT α so io).array
      = List.replicate ((so.getD defaultSizes).getD 0 0) none := rfl

theorem reachable_wf {α : Type} {s : DKT α} (h : Reachable s) : DKTWF s := by
  induction h with
  | init so io =>
    constructor
    · rw [mkDKT_array]
      exact wf_replicate _
    · intro i k lpt hi
      rw [mkDKT_array, idx_replicate] at hi
      exact absurd hi (by simp)
  | set _ hstep ih => exact (setItem_ok ih hstep).1
  | del _ hstep ih =>
    rename_i s0 s' k1 k2 _
    by_cases hp : ∃ v, absR s0 k1 k2 v
    · obtain ⟨v, hv⟩ := hp
      obtain ⟨s2, hdel, hwf, _⟩ := delItem_present ih hv
      rw [hstep] at hdel
      injection hdel with h1 h2
      rw [h2]
      exact hwf
    · have habs := delItem_absent ih (fun v hv => hp ⟨v, hv⟩)
      rw [hstep] at habs
      injection habs with h1 _
      exact absurd h1 (by simp)

/-! ### Remaining helper lemmas for the claims -/

theorem occ_pos_pair {α : Type} {a : Arr α} (h : 1 ≤ occupiedCount a) :
    ∃ k v, HasPair a k v := by
  rw [occupiedCount] at h
  have hpos : 0 < a.countP (fun sl => sl.isSome) := h
  obtain ⟨sl, hmem, hsl⟩ := List.countP_pos_iff.1 hpos
  match sl, hsl with
  | some (k, v), _ =>
    exact ⟨k, v, (mem_iff_hasPair a k v).1 hmem⟩

/-- An insert whose top-level scan exhausts the capacity fails with
`FullError` and leaves the table unchanged. -/
theorem setItem_exhausted {α : Type} {s : DKT α} {k1 : String}
    (k2 : String) (v : α) (hex : probe s.array k1 = .exhausted) :
    setItem s k1 k2 v = (.error .fullError, s) := by
  rw [setItem, linearProbe_eq_interp, hex]
  simp only [probeInterp, if_true]

/-- The last value a sequence of `set` operations assigns to a given
pair, if any (later operations override earlier ones). -/
def assocLast {α : Type} : List (String × String × α) → String → String →
    Option α
  | [], _, _ => none
  | (x, y, v) :: rest, a, b =>
    match assocLast rest a b with
    | some w => some w
    | none => if x = a ∧ y = b then some v else none

/-- A successful run of `set` operations preserves the invariant and its
final abstraction is the last-writer-wins association over the initial
one. -/
theorem runSets_absR {α : Type} :
    ∀ (ops : List (String × String × α)) {s s' : DKT α},
      DKTWF s → runSets s ops = .ok s' →
      DKTWF s' ∧ ∀ a b w, absR s' a b w ↔
        (assocLast ops a b = some w ∨
          (assocLast ops a b = none ∧ absR s a b w)) := by
  intro ops
  induction ops with
  | nil =>
    intro s s' wf hrun
    rw [runSets] at hrun
    injection hrun with h1
    rw [← h1]
    refine ⟨wf, ?_⟩
    intro a b w
    simp [assocLast]
  | cons hd rest ih =>
    intro s s' wf hrun
    match hd with
    | (x, y, v) =>
      rw [runSets] at hrun
      match hst : setItem s x y v with
      | (.error e, s1) =>
        rw [hst] at hrun
        exact absurd hrun (by simp)
      | (.ok u, s1) =>
        rw [hst] at hrun
        obtain ⟨wf1, habs1⟩ := setItem_ok wf hst
        obtain ⟨wf', habs'⟩ := ih wf1 hrun
        refine ⟨wf', ?_⟩
        intro a b w
        rw [habs' a b w]
        rw [show assocLast ((x, y, v) :: rest) a b
          = (match assocLast rest a b with
             | some w0 => some w0
             | none => if x = a ∧ y = b then some v else none) from rfl]
        match hal : assocLast rest a b with
        | some w0 => simp
        | none =>
          simp only []
          rw [habs1 a b w]
          by_cases hxy : x = a ∧ y = b
          · rw [if_pos hxy]
            constructor
            · rintro (hno | ⟨-, (⟨-, -, h3⟩ | ⟨hne, -⟩)⟩)
              · exact absurd hno (by simp)
              · exact Or.inl (by rw [h3])
              · exact absurd ⟨hxy.1.symm, hxy.2.symm⟩ hne
            · rintro (hw | ⟨hn, -⟩)
              · have hw2 : v = w := by simpa using hw
                exact Or.inr ⟨trivial, Or.inl ⟨hxy.1.symm, hxy.2.symm, hw2.symm⟩⟩
              · exact absurd hn (by simp)
          · rw [if_neg hxy]
            constructor
            · rintro (hno | ⟨-, (⟨h1, h2, -⟩ | ⟨-, habs⟩)⟩)
              · exact absurd hno (by simp)
              · exact absurd ⟨h1.symm, h2.symm⟩ hxy
              · exact Or.inr ⟨rfl, habs⟩
            · rintro (hno | ⟨-, habs⟩)
              · exact absurd hno (by simp)
              · refine Or.inr ⟨trivial, Or.inr ⟨?_, habs⟩⟩
                intro hc
                exact hxy ⟨hc.1.symm, hc.2.symm⟩

/-- With a capacity of at least two, the rolling hash never divides by
zero and agrees with the total model `polyHash`. -/
theorem hashE_ok_of_two_le {size : Nat} (h2 : 2 ≤ size) (key : String) :
    hashE size key = .ok (polyHash size key) := by
  have hnz : ¬ (size - 1 = 0) := by omega
  have main : ∀ (l : List Char) (st : Nat × Nat),
      hashFoldE size l st = .ok (l.foldl (hashStep size) st) := by
    intro l
    induction l with
    | nil => intro st; rfl
    | cons c cs ihl =>
      intro st
      rw [hashFoldE, if_neg hnz, List.foldl_cons]
      exact ihl (hashStep size st c)
  rw [hashE, polyHash, main key.data (0, 31417)]

/-- With a capacity of one, hashing any non-empty key divides by zero. -/
theorem hashE_one_ne {key : String} (hk : key ≠ "") :
    hashE 1 key = .error .zeroDivisionError := by
  match key with
  | .mk l =>
    match l with
    | [] => exact absurd rfl hk
    | c :: cs => rfl

/-! ### Concrete tables used by the claim theorems and their witnesses -/

/-- Three inserts under distinct first keys: enough to drive the
occupancy of a five-slot table past one half and trigger one resize. -/
def opsC1 : List (String × String × String) :=
  [("a", "x", "1"), ("b", "x", "2"), ("c", "x", "3")]

def stC1 : DKT String :=
  (runSets (mkDKT String (some [5, 13]) none) opsC1).toOption.getD
    (mkDKT String none none)

/-- Seven inserts under distinct first keys on the `[5, 13, 29]`
schedule: the first resize (after the third insert) zeroes the count, so
the last four inserts only raise it back to four. -/
def opsC2 : List (String × String × String) :=
  [("a", "x", "1"), ("b", "x", "2"), ("c", "x", "3"), ("d", "x", "4"),
   ("e", "x", "5"), ("f", "x", "6"), ("g", "x", "7")]

def stC2 : DKT String :=
  (runSets (mkDKT String (some [5, 13, 29]) none) opsC2).toOption.getD
    (mkDKT String none none)

/-- The default table after one insert of `("a", "b") ↦ "v"`. -/
def stOne : DKT String := (setItem (mkDKT String none none) "a" "b" "v").2

/-- The nested table stored in slot `i`, for spelling out concrete
instances of the abstraction relation. -/
def subAt (s : DKT String) (i : Nat) : LPT String :=
  match idx s.array i with
  | some (_, t) => t
  | none => newLPT String []

def stTwoA : DKT String := (setItem (mkDKT String none none) "a" "b" "1").2

/-- The default table after inserting `("a", "b") ↦ "1"` and then
`("c", "d") ↦ "2"`. -/
def stTwo : DKT String := (setItem stTwoA "c" "d" "2").2

/-- A full table of capacity one whose single slot holds a different
first key, so any probe for `"a"` exhausts the scan. -/
def tFull : DKT String :=
  ⟨[1], [1], 0, [some ("b", ⟨[1], 0, [some ("x", "y")], 1⟩)], 1⟩

/-- Two inserts to the same pair: the second must win. -/
def opsC3 : List (String × String × String) :=
  [("a", "b", "v1"), ("a", "b", "v2")]

def stC3 : DKT String :=
  (runSets (mkDKT String none none) opsC3).toOption.getD
    (mkDKT String none none)

def stC6 : DKT String :=
  (runSets (mkDKT String (some [5]) none) opsC1).toOption.getD
    (mkDKT String none none)

/-! ### The claims -/

/-- Claim C1: `len()` should always equal the number of occupied
top-level slots.  Refuted by the source: `_rehash` resets `count` to zero
and never restores it, so after the resize triggered by the third insert
the table reports `len() = 0` while three top-level slots are occupied. -/
theorem claim_C1 : ∃ s : DKT String,
    runSets (mkDKT String (some [5, 13]) none) opsC1 = .ok s ∧
    dktLen s = 0 ∧ occupiedCount s.array = 3 :=
  ⟨stC1, rfl, rfl, rfl⟩

/-- Claim C2: after any insertion the occupied top-level slots should
stay at or below half the capacity while the schedule is not exhausted.
Refuted by the source: the count zeroed by `_rehash` is what the
load-factor test reads, so after seven inserts on the `[5, 13, 29]`
schedule fourteen half-slots (7 of 13) are occupied, twice the occupancy
exceeds the capacity, and yet a strictly larger schedule entry (29)
remains unused. -/
theorem claim_C2 : ∃ s : DKT String,
    runSets (mkDKT String (some [5, 13, 29]) none) opsC2 = .ok s ∧
    2 * occupiedCount s.array > tableSize s ∧
    s.sizeIndex + 1 < s.sizes.length :=
  ⟨stC2, rfl, by decide, by decide⟩

/-- Claim C3: after any successful run of inserts from a fresh table,
every pair reads back its last-set value. -/
theorem claim_C3 {α : Type} (so io : Option (List Nat))
    (ops : List (String × String × α)) (s' : DKT α) (k1 k2 : String) (v : α)
    (hrun : runSets (mkDKT α so io) ops = .ok s')
    (hlast : assocLast ops k1 k2 = some v) :
    getItem s' k1 k2 = .ok v := by
  have wf0 : DKTWF (mkDKT α so io) := reachable_wf (Reachable.init so io)
  obtain ⟨wf', habs⟩ := runSets_absR ops wf0 hrun
  have habv : absR s' k1 k2 v := (habs k1 k2 v).2 (Or.inl hlast)
  rw [getItem, getItemSt_present wf' habv]

theorem claim_C3_witness : getItem stC3 "a" "b" = .ok "v2" :=
  claim_C3 none none opsC3 stC3 "a" "b" "v2" rfl rfl

/-- Claim C4: deleting a present pair from any reachable table succeeds,
`contains` on that pair then answers `false`, and every other pair is
still found by a fresh probe with its unchanged value. -/
theorem claim_C4 {α : Type} {s : DKT α} {k1 k2 : String} {v : α}
    (hr : Reachable s) (hab : absR s k1 k2 v) :
    ∃ s', delItem s k1 k2 = (.ok (), s') ∧
      containsItem s' k1 k2 = .ok false ∧
      ∀ a b w, ¬(a = k1 ∧ b = k2) → absR s a b w →
        getItem s' a b = .ok w := by
  have wf := reachable_wf hr
  obtain ⟨s', hdel, hwf', habs⟩ := delItem_present wf hab
  refine ⟨s', hdel, ?_, ?_⟩
  · have habsent : ∀ w, ¬ absR s' k1 k2 w := by
      intro w hw
      exact ((habs k1 k2 w).1 hw).1 ⟨rfl, rfl⟩
    rw [containsItem, getItem, getItemSt_absent hwf' habsent]
  · intro a b w hne hw
    rw [getItem, getItemSt_present hwf' ((habs a b w).2 ⟨hne, hw⟩)]

theorem claim_C4_witness :
    ∃ s', delItem stTwo "a" "b" = (.ok (), s') ∧
      containsItem s' "a" "b" = .ok false ∧
      ∀ a b w, ¬(a = "a" ∧ b = "b") → absR stTwo a b w →
        getItem s' a b = .ok w :=
  claim_C4
    (@Reachable.set String stTwoA stTwo "c" "d" "2"
      (@Reachable.set String (mkDKT String none none) stTwoA "a" "b" "1"
        (Reachable.init none none) rfl) rfl)
    ⟨subAt stTwo 2, ⟨2, rfl⟩, ⟨3, rfl⟩⟩

/-- Claim C5: `iter_keys(k1)` should yield the second keys under a
present first key.  Refuted by the source: `iter_keys` reads
`tpl_entry[0].keys()`, and `tpl_entry[0]` is the first key itself — a
string with no `keys` attribute — so iterating over a present first key
raises `AttributeError` instead of yielding anything. -/
theorem claim_C5 {α : Type} {s : DKT α} {k1 k2 : String} {v : α}
    (hr : Reachable s) (hab : absR s k1 k2 v) :
    iterKeys s (some k1) = .error .attributeError := by
  have wf := reachable_wf hr
  obtain ⟨lpt, ⟨i, hi⟩, -⟩ := hab
  have htop : probe s.array k1 = .found i := probe_found_of_wf wf.top hi
  rw [iterKeys, linearProbe_eq_interp, htop]
  simp only [probeInterp, hi]

theorem claim_C5_witness :
    iterKeys stOne (some "a") = .error .attributeError :=
  claim_C5
    (@Reachable.set String (mkDKT String none none) stOne "a" "b" "v"
      (Reachable.init none none) rfl)
    ⟨subAt stOne 2, ⟨2, rfl⟩, ⟨3, rfl⟩⟩

/-- Claim C6 (counterexample): the original claim says an
exhausted-schedule resize attempt leaves the entire state, size index
included, unchanged.  On the one-entry schedule `[5]` the resize
triggered by the third insert finds no larger capacity, yet the final
size index is 1, not the initial 0, while the capacity stays 5. -/
theorem claim_C6_counterexample : ∃ s : DKT String,
    runSets (mkDKT String (some [5]) none) opsC1 = .ok s ∧
    tableSize s = 5 ∧ occupiedCount s.array = 3 ∧ s.sizeIndex = 1 :=
  ⟨stC6, rfl, rfl, rfl, rfl⟩

/-- Claim C6 (amended): when the capacity schedule is exhausted the
resize attempt returns successfully and leaves the slot array, the
capacity, the count and both schedules unchanged — but it still advances
the size index by one, because `_rehash` increments `size_index` before
checking the schedule. -/
theorem claim_C6 {α : Type} (s : DKT α)
    (hex : s.sizeIndex + 1 ≥ s.sizes.length) :
    (rehash s).1 = .ok () ∧ (rehash s).2.array = s.array ∧
    (rehash s).2.count = s.count ∧ (rehash s).2.sizes = s.sizes ∧
    (rehash s).2.internalSizes = s.internalSizes ∧
    (rehash s).2.sizeIndex = s.sizeIndex + 1 := by
  rw [rehash, if_pos hex]
  exact ⟨rfl, rfl, rfl, rfl, rfl, rfl⟩

theorem claim_C6_witness :
    (rehash (mkDKT String (some [5]) none)).1 = .ok () ∧
    (rehash (mkDKT String (some [5]) none)).2.array
      = (mkDKT String (some [5]) none).array ∧
    (rehash (mkDKT String (some [5]) none)).2.count
      = (mkDKT String (some [5]) none).count ∧
    (rehash (mkDKT String (some [5]) none)).2.sizes
      = (mkDKT String (some [5]) none).sizes ∧
    (rehash (mkDKT String (some [5]) none)).2.internalSizes
      = (mkDKT String (some [5]) none).internalSizes ∧
    (rehash (mkDKT String (some [5]) none)).2.sizeIndex
      = (mkDKT String (some [5]) none).sizeIndex + 1 :=
  claim_C6 (mkDKT String (some [5]) none) (by decide)

/-- Claim C7: a lookup or delete of an absent pair fails with `KeyError`
and returns the table exactly as it was, and an insert whose top-level
scan exhausts the capacity fails with `FullError`, again with the table
unchanged. -/
theorem claim_C7 {α : Type} {s t : DKT α} {k1 k2 k1f k2f : String} (v : α)
    (wf : DKTWF s) (hab : ∀ w, ¬ absR s k1 k2 w)
    (hex : probe t.array k1f = .exhausted) :
    getItemSt s k1 k2 = (.error .keyError, s) ∧
    delItem s k1 k2 = (.error .keyError, s) ∧
    setItem t k1f k2f v = (.error .fullError, t) :=
  ⟨getItemSt_absent wf hab, delItem_absent wf hab,
    setItem_exhausted k2f v hex⟩

theorem claim_C7_witness :
    getItemSt (mkDKT String none none) "p" "q"
      = (.error .keyError, mkDKT String none none) ∧
    delItem (mkDKT String none none) "p" "q"
      = (.error .keyError, mkDKT String none none) ∧
    setItem tFull "a" "z" "w" = (.error .fullError, tFull) :=
  claim_C7 "w" (reachable_wf (Reachable.init none none))
    (by
      rintro w ⟨lpt, ⟨i, hi⟩, -⟩
      rw [mkDKT_array, idx_replicate] at hi
      exact absurd hi (by simp))
    rfl

/-- Claim C8: on every reachable table the deletion procedure — repair
walk included — terminates: `delItem` always returns, with either success
or `KeyError`, and in particular the fuel-out marker `modelTimeout` that
would signal a walk failing to reach an empty slot never occurs. -/
theorem claim_C8 {α : Type} {s : DKT α} (hr : Reachable s) (k1 k2 : String) :
    (delItem s k1 k2).1 = .ok () ∨
    (delItem s k1 k2).1 = .error .keyError := by
  have wf := reachable_wf hr
  by_cases hp : ∃ v, absR s k1 k2 v
  · obtain ⟨v, hv⟩ := hp
    obtain ⟨s', hdel, -, -⟩ := delItem_present wf hv
    rw [hdel]
    exact Or.inl rfl
  · rw [delItem_absent wf (fun v hv => hp ⟨v, hv⟩)]
    exact Or.inr rfl

theorem claim_C8_witness :
    (delItem (mkDKT String none none) "x" "y").1 = .ok () ∨
    (delItem (mkDKT String none none) "x" "y").1 = .error .keyError :=
  claim_C8 (Reachable.init none none) "x" "y"

/-- Claim C9: on every reachable table no top-level slot holds an empty
nested table — every stored nested table has a positive count and at
least one `(second_key, value)` entry. -/
theorem claim_C9 {α : Type} {s : DKT α} (hr : Reachable s) :
    ∀ i k1 lpt, idx s.array i = some (k1, lpt) →
      1 ≤ lpt.count ∧ ∃ k2 v, HasPair lpt.array k2 v := by
  intro i k1 lpt hi
  have wf := reachable_wf hr
  obtain ⟨hlw, hc⟩ := wf.nested i k1 lpt hi
  refine ⟨hc, ?_⟩
  apply occ_pos_pair
  rw [← hlw.cnt]
  exact hc

theorem claim_C9_witness :
    1 ≤ (subAt stOne 2).count ∧
    ∃ k2 v, HasPair (subAt stOne 2).array k2 v :=
  claim_C9
    (@Reachable.set String (mkDKT String none none) stOne "a" "b" "v"
      (Reachable.init none none) rfl)
    2 "a" (subAt stOne 2) rfl

/-- Claim C10: with a capacity of at least two the rolling hash returns
a value in `[0, capacity)`, and with a capacity-one table hashing any
non-empty key raises `ZeroDivisionError` (the step
`a = a * HASH_BASE % (size - 1)` divides by zero). -/
theorem claim_C10 (size : Nat) (key key1 : String) (h2 : 2 ≤ size)
    (hk : key1 ≠ "") :
    (∃ n, hashE size key = .ok n ∧ n < size) ∧
    hashE 1 key1 = .error .zeroDivisionError :=
  ⟨⟨polyHash size key, hashE_ok_of_two_le h2 key,
    polyHash_lt size key (by omega)⟩, hashE_one_ne hk⟩

theorem claim_C10_witness :
    (∃ n, hashE 5 "abc" = .ok n ∧ n < 5) ∧
    hashE 1 "a" = .error .zeroDivisionError :=
  claim_C10 5 "abc" "a" (by decide) (by decide)

end VirusSim
